import Mathlib

/-!
Shallow embedding of the Delaunay triangulation library (src/main.ts, with the
cofactor determinant from the second, unnamed source file) and verification of
the frozen claims about it.

Modelling conventions:
* JavaScript numbers are modelled as exact rationals (ℚ).  All inputs the
  claims are about are small integers or halves, where IEEE doubles behave
  exactly like the rationals they denote.
* A stored angle `Math.atan2(dy, dx)` is represented by the direction vector
  `Angle.dir dx dy`; the additional constructor `Angle.negPi` represents the
  literal reference angle `-Math.PI` that the merge step passes explicitly
  (with rational inputs `atan2` itself never returns `-π`, since `atan2` maps
  into `(-π, π]` and `y = 0` is always `+0` here).  Comparison of two float
  angles in the source is modelled by comparing the exact mathematical angles,
  via the order-embedding `akeyL` below: angles are ordered by the lexicographic
  key (half-plane class, -dx/dy), which is strictly monotone in
  `atan2 dy dx ∈ (-π, π]`, and two directions get equal keys exactly when they
  are positive multiples of one another, i.e. have equal `atan2` values.
* The JavaScript object holding the adjacency map is modelled as an
  insertion-ordered association list (string keys `id(p) = "(x,y)"` are in
  bijection with the points themselves, so the point is used as the key).
* Exceptions (`throw`, property access on `undefined`) are modelled with
  `Except DErr`; unbounded `while` loops and the recursion of `_dual` take a
  fuel parameter and report `DErr.outOfFuel` when it runs out, so every
  `Except.ok` result of the model is a result the source program actually
  computes.
-/

namespace DT

/-- A point, `interface Point { x: number; y: number }`. Identity is by value:
`id(p)` is the string `"(x,y)"`, which is injective on number pairs, so maps
keyed by `id(p)` are modelled as maps keyed by the point itself. -/
structure Pt where
  x : ℚ
  y : ℚ
deriving DecidableEq, Repr

/-- `minus(p, q)`. -/
def pminus (p q : Pt) : Pt := ⟨p.x - q.x, p.y - q.y⟩

/-- `norm2(p) = p.x * p.x + p.y * p.y`. -/
def norm2 (p : Pt) : ℚ := p.x * p.x + p.y * p.y

/-!
## Determinants

`main.ts` computes determinants by permutation expansion (the function `S`
enumerates permutations with their signs); the unnamed source file computes
them by cofactor expansion along the first row.  Both are embedded.
-/

/-- The permutation generator `S(n)` of `main.ts` (the `S_cache` memo table
only caches results and does not change them, so it is dropped).  `S(n)` for
`n ≥ 2` inserts `n` into every slot of every permutation of `{1..n-1}`,
adjusting the sign by `(-1)^(n-i+1)`.  `S(0)` does not terminate in the
source (it recurses into negative arguments); it is mapped to `[]`, which no
claim exercises. -/
def S : Nat → List (List Nat × ℤ)
  | 0 => []
  | 1 => [([1], 1)]
  | n + 2 =>
    (S (n + 1)).flatMap fun ps =>
      (List.range (n + 2)).map fun i =>
        (ps.1.take i ++ [n + 2] ++ ps.1.drop i, (-1 : ℤ) ^ (n + 2 - i + 1) * ps.2)

/-- `det(M)` of `main.ts`: permutation expansion.  Out-of-range accesses (which
would be `undefined`/NaN in JavaScript and occur for no well-formed matrix)
default to `0`. -/
def detPerm (M : List (List ℚ)) : ℚ :=
  ((S M.length).map fun ps =>
    (List.range M.length).foldl
      (fun x i => x * ((M.getD i []).getD (ps.1.getD i 0 - 1) 0)) ((ps.2 : ℚ))).sum

/-- `det(M)` of the unnamed source file: cofactor expansion along row 0,
`det([]) = 1`, sign `1 - 2*(i % 2)`. -/
def detCof : List (List ℚ) → ℚ
  | [] => 1
  | r0 :: rest =>
    ((List.range (r0 :: rest).length).map fun i =>
      ((1 : ℚ) - 2 * ((i % 2 : ℕ) : ℚ)) * r0.getD i 0 *
        detCof (rest.map fun row => row.take i ++ row.drop (i + 1))).sum
termination_by M => M.length
decreasing_by simp

/-- `ccw(p, q, r)` of `main.ts`. -/
def ccw (p q r : Pt) : Bool :=
  detPerm [[p.x, p.y, 1], [q.x, q.y, 1], [r.x, r.y, 1]] > 0

/-- `belowLine(p, [a, b])`: false when `p` is one of the endpoints, otherwise
the sign of the orientation determinant after canonicalizing the endpoints so
that the one with smaller x comes first (the two-element stable sort by
`l.x - r.x` swaps exactly when `b.x < a.x`).  The source compares `p` to the
endpoints with reference identity; points are shared by reference there, and
with exact arithmetic a coordinate-equal point yields a zero determinant and
hence `false` through the sign test as well, so value equality is faithful. -/
def belowLine (p : Pt) (ab : Pt × Pt) : Bool :=
  if p = ab.1 ∨ p = ab.2 then false
  else
    let a := if ab.2.x < ab.1.x then ab.2 else ab.1
    let b := if ab.2.x < ab.1.x then ab.1 else ab.2
    detPerm [[a.x, a.y, 1], [b.x, b.y, 1], [p.x, p.y, 1]] < 0

/-- `aboveLine(p, [a, b])`, symmetric to `belowLine`. -/
def aboveLine (p : Pt) (ab : Pt × Pt) : Bool :=
  if p = ab.1 ∨ p = ab.2 then false
  else
    let a := if ab.2.x < ab.1.x then ab.2 else ab.1
    let b := if ab.2.x < ab.1.x then ab.1 else ab.2
    detPerm [[a.x, a.y, 1], [b.x, b.y, 1], [p.x, p.y, 1]] > 0

/-- `inCircle(p, [a, b, c])` of `main.ts`: the lifted 4×4 determinant, false
when `p` coincides with a vertex. -/
def inCircle (p : Pt) (abc : Pt × Pt × Pt) : Bool :=
  if p = abc.1 ∨ p = abc.2.1 ∨ p = abc.2.2 then false
  else
    detPerm [[abc.1.x, abc.1.y, norm2 abc.1, 1],
             [abc.2.1.x, abc.2.1.y, norm2 abc.2.1, 1],
             [abc.2.2.x, abc.2.2.y, norm2 abc.2.2, 1],
             [p.x, p.y, norm2 p, 1]] > 0

/-- `centerOf(p, q, r)` of `main.ts` (circumcenter by determinant ratios).
Rational division is total with `x / 0 = 0`, whereas JavaScript would produce
`±Infinity`; no claim evaluates it on collinear points, where the two differ. -/
def centerOf (p q r : Pt) : Pt :=
  let Mxy := detPerm [[p.x, p.y, 1], [q.x, q.y, 1], [r.x, r.y, 1]]
  let Mny := detPerm [[norm2 p, p.y, 1], [norm2 q, q.y, 1], [norm2 r, r.y, 1]]
  let Mnx := detPerm [[norm2 p, p.x, 1], [norm2 q, q.x, 1], [norm2 r, r.x, 1]]
  ⟨(1 / 2) * (Mny / Mxy), -(1 / 2) * (Mnx / Mxy)⟩

/-!
## Angles

The exact representation of the float `Math.atan2(dy, dx)` and of the two
explicit reference angles (`0`, which equals `atan2(0, 1)`, and `-Math.PI`,
which is below every angle `atan2` produces on these inputs).
-/

/-- An angle value as the source manipulates it. -/
inductive Angle where
  | dir (dx dy : ℚ) : Angle
  | negPi : Angle
deriving DecidableEq, Repr

/-- Order key of an angle: lexicographic in (half-plane class, -dx/dy).
Class 0 is the explicit `-π`; class 1 is the open lower half plane
(`atan2 ∈ (-π, 0)`, where the angle is strictly increasing in `-dx/dy`);
class 2 is angle `0` (non-negative x axis, including the origin, since
`atan2(0, 0) = 0`); class 3 is the open upper half plane (`atan2 ∈ (0, π)`);
class 4 is angle `π` (negative x axis).  Equal keys correspond exactly to
equal `atan2` values, and key order to `atan2` order. -/
def akeyL : Angle → ℕ ×ₗ ℚ
  | .negPi => toLex (0, 0)
  | .dir dx dy =>
    toLex <|
      if dy < 0 then (1, -dx / dy)
      else if 0 < dy then (3, -dx / dy)
      else if 0 ≤ dx then (2, 0)
      else (4, 0)

/-- Float comparison `a < b` on angle values. -/
def angleLtB (a b : Angle) : Bool := akeyL a < akeyL b

/-- Float comparison `a === b` on angle values. -/
def angleEqB (a b : Angle) : Bool := akeyL a = akeyL b

/-- The angle `atan2(D.y, D.x)` of a difference vector `D`. -/
def angOf (d : Pt) : Angle := .dir d.x d.y

/-!
## Links and rings
-/

/-- `interface Link { point: Point; angle: number }`. -/
structure Link where
  point : Pt
  angle : Angle
deriving DecidableEq, Repr

/-- `interface Ring { center: Point; links: Link[] }`. -/
structure Ring where
  center : Pt
  links : List Link
deriving DecidableEq, Repr

/-- Stable insertion (for the ECMAScript stable `Array.prototype.sort` with a
numeric key comparator): the element goes before the first met element that is
not strictly smaller, i.e. before equal keys coming later in the scan. -/
def insK {α β : Type} [LinearOrder β] (kf : α → β) (a : α) :
    List α → List α
  | [] => [a]
  | b :: t => if kf b < kf a then b :: insK kf a t else a :: b :: t

/-- Right-fold insertion sort with `insK`; inserting every element before the
equal-key elements that follow it in the original array makes this exactly the
stable ascending sort of ECMAScript. -/
def sortK {α β : Type} [LinearOrder β] (kf : α → β) : List α → List α
  | [] => []
  | a :: t => insK kf a (sortK kf t)

/-- `links.sort((c, d) => c.angle - d.angle)`: stable ascending sort by the
angle value. -/
def sortLinks : List Link → List Link := sortK fun l => akeyL l.angle

/-- `addConnection(p, ring)`: push a link to `p` with angle `atan2` of the
difference, then re-sort.  Pushing last and stably sorting is the same as
stably inserting into the (always sorted) list. -/
def addConnection (p : Pt) (ring : Ring) : Ring :=
  { ring with links := sortLinks (ring.links ++ [⟨p, angOf (pminus p ring.center)⟩]) }

/-- `removeConnection(p, ring)`: drop every link to `p` (the source filters by
reference identity `c.point !== p`; identity is by value in this model). -/
def removeConnection (p : Pt) (ring : Ring) : Ring :=
  { ring with links := ring.links.filter fun l => decide (l.point ≠ p) }

/-!
## The `nextConnection` lookup
-/

/-- Error conditions of the source: the explicit `InsufficientPoints` and
`MalformedTriangulation` throws, the implicit TypeError of a property access
on `undefined`, and fuel exhaustion of the model (covering the unbounded
loops of the source). -/
inductive DErr where
  | insufficientPoints : DErr
  | malformedTriangulation : DErr
  | typeError : DErr
  | outOfFuel : DErr
deriving DecidableEq, Repr

/-- The scan loop of `nextConnectionFromAngle`: the first index whose link
stops the scan — an exact angle match stops it only when `direction ≤ 0`, a
strictly greater angle always stops it. -/
def scanIdx (a : Angle) (direction : ℤ) : List Link → ℕ
  | [] => 0
  | l :: ls =>
    if angleEqB l.angle a ∧ direction ≤ 0 then 0
    else if angleLtB a l.angle then 0
    else scanIdx a direction ls + 1

/-- `nextConnectionFromAngle(angle, ring, { direction })`.  `links[i] ||
links[0]` falls back exactly when `links[i]` is `undefined` (link objects are
always truthy); reading `.point` of `undefined` is the TypeError case. -/
def nextConnectionFromAngle (a : Angle) (ring : Ring) (direction : ℤ) :
    Except DErr Pt :=
  let i := scanIdx a direction ring.links
  if 0 < direction then
    match (ring.links.get? i).orElse (fun _ => ring.links.get? 0) with
    | some l => .ok l.point
    | none => .error .typeError
  else
    match (if i = 0 then ring.links.getLast?
           else (ring.links.get? (i - 1)).orElse fun _ => ring.links.getLast?) with
    | some l => .ok l.point
    | none => .error .typeError

/-- The `number | Point` reference argument of `nextConnection`. -/
def nextConnection (ref : Angle ⊕ Pt) (ring : Ring) (direction : ℤ) :
    Except DErr Pt :=
  match ref with
  | .inl a => nextConnectionFromAngle a ring direction
  | .inr p => nextConnectionFromAngle (angOf (pminus p ring.center)) ring direction

/-- `nextConnectionAbove(p, ring, opts, line)`: the found neighbor, filtered
through `aboveLine` (`(aboveLine(q, line) || null) && q`). -/
def nextConnectionAbove (p : Pt) (ring : Ring) (direction : ℤ) (line : Pt × Pt) :
    Except DErr (Option Pt) :=
  match nextConnection (.inr p) ring direction with
  | .error e => .error e
  | .ok q => .ok (if aboveLine q line then some q else none)

/-!
## Connection maps

`interface Connections { [key: string]: Ring }`, an insertion-ordered map.
Assigning to an existing key keeps its position; a new key is appended, as in
a JavaScript object with string keys.
-/

/-- The adjacency map, as an insertion-ordered association list. -/
abbrev Connections := List (Pt × Ring)

/-- `connections[id(p)]` on the reading side. -/
def lookupRing (c : Connections) (p : Pt) : Option Ring :=
  (c.find? fun e => decide (e.1 = p)).map (·.2)

/-- Whether the key `id(p)` is present. -/
def containsKey (c : Connections) (p : Pt) : Bool :=
  c.any fun e => decide (e.1 = p)

/-- `connections[id(p)] = r` on the writing side. -/
def setRing (c : Connections) (p : Pt) (r : Ring) : Connections :=
  if containsKey c p then c.map fun e => if e.1 = p then (p, r) else e
  else c ++ [(p, r)]

/-- The links of the ring stored at `p` (empty when the key is absent). -/
def ringOfD (c : Connections) (p : Pt) : List Link :=
  ((lookupRing c p).map (·.links)).getD []

/-- `emptyConnections(pts)`. -/
def emptyConnections (pts : List Pt) : Connections :=
  pts.foldl (fun c pt => setRing c pt ⟨pt, []⟩) []

/-- `addPoint(p, connections)`. -/
def addPoint (p : Pt) (c : Connections) : Connections :=
  setRing c p ⟨p, []⟩

/-- `connect(p, q, connections)`: add the two directed links, first into the
ring of `p`, then into the (already updated, relevant when `p = q`) ring of
`q`.  A missing ring is the TypeError case. -/
def connect (p q : Pt) (c : Connections) : Except DErr Connections :=
  match lookupRing c p with
  | none => .error .typeError
  | some rp =>
    let c1 := setRing c p (addConnection q rp)
    match lookupRing c1 q with
    | none => .error .typeError
    | some rq => .ok (setRing c1 q (addConnection p rq))

/-- `disconnect(p, q, connections)`: remove the mutual links. -/
def disconnect (p q : Pt) (c : Connections) : Except DErr Connections :=
  match lookupRing c p with
  | none => .error .typeError
  | some rp =>
    let c1 := setRing c p (removeConnection q rp)
    match lookupRing c1 q with
    | none => .error .typeError
    | some rq => .ok (setRing c1 q (removeConnection p rq))

/-- `mergeConnections(c, d) = Object.assign({}, c, d)`: keys of `c` first in
their order (values overridden by `d` on collision), then the new keys of `d`. -/
def mergeConnections (c d : Connections) : Connections :=
  (c.map fun e => match lookupRing d e.1 with
                  | some r => (e.1, r)
                  | none => e) ++
    d.filter fun e => !containsKey c e.1

/-!
## Triangle location and the dual
-/

/-- `rightTriangle(connections, p, q)`: the candidate third vertex `r` is the
forward neighbor of `p` in the ring of `q`; it must agree with the backward
neighbor of `q` in the ring of `p`. -/
def rightTriangle (c : Connections) (p q : Pt) :
    Except DErr (Option (Pt × Pt × Pt)) :=
  match lookupRing c q with
  | none => .error .typeError
  | some rq =>
    match nextConnection (.inr p) rq 1 with
    | .error e => .error e
    | .ok r =>
      match lookupRing c p with
      | none => .error .typeError
      | some rp =>
        match nextConnection (.inr q) rp (-1) with
        | .error e => .error e
        | .ok r2 => if r ≠ r2 then .ok none else .ok (some (q, p, r))

/-- `randomTriangle(connections)`: seed from the first stored ring and its
first link; `MalformedTriangulation` when neither orientation of the seed edge
bounds a face. -/
def randomTriangle (c : Connections) : Except DErr (Pt × Pt × Pt) :=
  match c.head? with
  | none => .error .typeError
  | some e =>
    let p := e.2.center
    match e.2.links.head? with
    | none => .error .typeError
    | some l =>
      let q := l.point
      match rightTriangle c p q with
      | .error er => .error er
      | .ok (some T) => .ok T
      | .ok none =>
        match rightTriangle c q p with
        | .error er => .error er
        | .ok (some T) => .ok T
        | .ok none => .error .malformedTriangulation

/-- The face-walking recursion `_dual(connections, [a,b,c], faces)`, with fuel
for the recursion depth.  For each of the three directed edges, the adjacent
face is located, the recursion visits it, and its circumcenter is connected to
this face's circumcenter; already-visited circumcenters stop the recursion. -/
def dualAux (c : Connections) : ℕ → Pt × Pt × Pt → Connections → Except DErr Connections
  | 0, _, _ => .error .outOfFuel
  | fuel + 1, T, faces =>
    let center := centerOf T.1 T.2.1 T.2.2
    if containsKey faces center then .ok faces
    else
      let faces1 := addPoint center faces
      match rightTriangle c T.1 T.2.1, rightTriangle c T.2.1 T.2.2,
            rightTriangle c T.2.2 T.1 with
      | .ok o1, .ok o2, .ok o3 =>
        ([o1, o2, o3].filterMap id).foldl
          (fun acc T2 =>
            match acc with
            | .error e => .error e
            | .ok fs =>
              match dualAux c fuel T2 fs with
              | .error e => .error e
              | .ok fs1 => connect center (centerOf T2.1 T2.2.1 T2.2.2) fs1)
          (.ok faces1)
      | .error e, _, _ => .error e
      | _, .error e, _ => .error e
      | _, _, .error e => .error e

/-- `dual(connections)`, with fuel for the face recursion. -/
def dual (fuel : ℕ) (c : Connections) : Except DErr Connections :=
  match randomTriangle c with
  | .error e => .error e
  | .ok T => dualAux c fuel T []

/-!
## The divide-and-conquer builder
-/

/-- `pts.sort((p, q) => p.x - q.x)`: stable ascending sort by x-coordinate
(the same stable keyed insertion sort, with the x-coordinate as key).  The
source sorts the caller-supplied array in place; this is the value the array
holds afterwards. -/
def sortByX : List Pt → List Pt := sortK fun p => p.x

/-- The lower-tangent search loop.  `connections` is only read here.  The
destructuring assignments evaluate the right-hand sides first, so the new
`nextLeft` uses the outgoing `left` and the ring of the incoming one. -/
def tangentLoop (c : Connections) :
    ℕ → Pt → Pt → Pt → Pt → Except DErr (Pt × Pt)
  | 0, _, _, _, _ => .error .outOfFuel
  | fuel + 1, left, right, nextLeft, nextRight =>
    if belowLine nextLeft (left, right) then
      match lookupRing c nextLeft with
      | none => .error .typeError
      | some r =>
        match nextConnection (.inr left) r (-1) with
        | .error e => .error e
        | .ok nl => tangentLoop c fuel nextLeft right nl nextRight
    else if belowLine nextRight (left, right) then
      match lookupRing c nextRight with
      | none => .error .typeError
      | some r =>
        match nextConnection (.inr right) r 1 with
        | .error e => .error e
        | .ok nr => tangentLoop c fuel left nextRight nextLeft nr
    else .ok (left, right)

/-- The candidate-refinement inner loop of the merge: starting from the
current candidate of `owner` (`left` with direction `+1`, `right` with
direction `-1`), while the next candidate lies strictly inside the
circumcircle of `(left, right, candidate)`, the candidate edge is disconnected
from `owner` and the next candidate takes its place. -/
def refineCandidate : ℕ → Connections → Pt → ℤ → Pt → Pt → Pt →
    Except DErr (Connections × Pt)
  | 0, _, _, _, _, _, _ => .error .outOfFuel
  | fuel + 1, conns, owner, direction, left, right, cand =>
    match lookupRing conns owner with
    | none => .error .typeError
    | some r =>
      match nextConnectionAbove cand r direction (left, right) with
      | .error e => .error e
      | .ok none => .ok (conns, cand)
      | .ok (some nc) =>
        if inCircle nc (left, right, cand) then
          match disconnect owner cand conns with
          | .error e => .error e
          | .ok conns1 => refineCandidate fuel conns1 owner direction left right nc
        else .ok (conns, cand)

/-- One-or-more iterations of the outer merge loop `while (left && right)`
(points are always truthy, so only the internal `break` exits). -/
def mergeLoop : ℕ → Connections → Pt → Pt → Except DErr Connections
  | 0, _, _, _ => .error .outOfFuel
  | fuel + 1, conns, left, right =>
    match lookupRing conns left with
    | none => .error .typeError
    | some rl =>
      match nextConnectionAbove right rl 1 (left, right) with
      | .error e => .error e
      | .ok lc0 =>
        match (match lc0 with
               | some q => (refineCandidate fuel conns left 1 left right q).map
                   fun (x : Connections × Pt) => (x.1, some x.2)
               | none => .ok (conns, none)) with
        | .error e => .error e
        | .ok (conns1, leftCandidate) =>
          match lookupRing conns1 right with
          | none => .error .typeError
          | some rr =>
            match nextConnectionAbove left rr (-1) (left, right) with
            | .error e => .error e
            | .ok rc0 =>
              match (match rc0 with
                     | some q => (refineCandidate fuel conns1 right (-1) left right q).map
                         fun (x : Connections × Pt) => (x.1, some x.2)
                     | none => .ok (conns1, none)) with
              | .error e => .error e
              | .ok (conns2, rightCandidate) =>
                match leftCandidate, rightCandidate with
                | none, none => .ok conns2
                | lc, rc =>
                  let (lc2, rc2) :=
                    match lc, rc with
                    | some l, some r =>
                      if inCircle r (l, left, right) then (none, some r)
                      else (some l, none)
                    | _, _ => (lc, rc)
                  let left2 := lc2.getD left
                  let right2 := rc2.getD right
                  match connect left2 right2 conns2 with
                  | .error e => .error e
                  | .ok conns3 => mergeLoop fuel conns3 left2 right2

/-- `delaunay(pts)`.  Fuel bounds the recursion depth and the loop iteration
counts; every `Except.ok` result is the value the source returns. -/
def delaunayF : ℕ → List Pt → Except DErr Connections
  | 0, _ => .error .outOfFuel
  | fuel + 1, pts =>
    if pts.length < 2 then .error .insufficientPoints
    else
      match sortByX pts with
      | [p, q] =>
        connect p q (emptyConnections [p, q])
      | [p, q, r] =>
        match connect p q (emptyConnections [p, q, r]) with
        | .error e => .error e
        | .ok c1 =>
          match connect q r c1 with
          | .error e => .error e
          | .ok c2 => connect r p c2
      | spts =>
        let mid := spts.length / 2
        let leftPts := spts.take mid
        let rightPts := spts.drop mid
        match delaunayF fuel leftPts, delaunayF fuel rightPts with
        | .ok leftC, .ok rightC =>
          let conns := mergeConnections leftC rightC
          match leftPts.getLast?, rightPts.head? with
          | some left0, some right0 =>
            (match lookupRing conns left0 with
             | none => .error .typeError
             | some rl =>
               match nextConnection (.inl (.dir 1 0)) rl (-1) with
               | .error e => .error e
               | .ok nl =>
                 match lookupRing conns right0 with
                 | none => .error .typeError
                 | some rr =>
                   match nextConnection (.inl .negPi) rr 1 with
                   | .error e => .error e
                   | .ok nr =>
                     match tangentLoop conns fuel left0 right0 nl nr with
                     | .error e => .error e
                     | .ok (left1, right1) =>
                       match connect left1 right1 conns with
                       | .error e => .error e
                       | .ok conns1 => mergeLoop fuel conns1 left1 right1)
          | _, _ => .error .typeError
        | .error e, _ => .error e
        | _, .error e => .error e

/-- The state of the caller-supplied array after `delaunay(pts)` returns or
throws: the in-place `pts.sort((p, q) => p.x - q.x)` has reordered it whenever
the length check passed. -/
def delaunayArgAfter (pts : List Pt) : List Pt :=
  if pts.length < 2 then pts else sortByX pts


/-!
## Lemmas about the stable sort
-/

theorem insK_perm {α β : Type} [LinearOrder β] (kf : α → β) (a : α) :
    ∀ t : List α, (insK kf a t).Perm (a :: t)
  | [] => List.Perm.refl _
  | b :: t => by
    simp only [insK]
    split
    · exact ((insK_perm kf a t).cons b).trans (List.Perm.swap a b t)
    · exact List.Perm.refl _

theorem sortK_perm {α β : Type} [LinearOrder β] (kf : α → β) :
    ∀ t : List α, (sortK kf t).Perm t
  | [] => List.Perm.refl _
  | a :: t => (insK_perm kf a (sortK kf t)).trans ((sortK_perm kf t).cons a)

theorem insK_sorted {α β : Type} [LinearOrder β] (kf : α → β) (a : α)
    (t : List α) (h : t.Pairwise fun x y => kf x ≤ kf y) :
    (insK kf a t).Pairwise fun x y => kf x ≤ kf y := by
  induction t with
  | nil => simp [insK]
  | cons b t ih =>
    rw [List.pairwise_cons] at h
    by_cases hlt : kf b < kf a
    · simp only [insK, if_pos hlt]
      rw [List.pairwise_cons]
      refine ⟨fun x hx => ?_, ih h.2⟩
      rcases List.mem_cons.mp ((insK_perm kf a t).mem_iff.mp hx) with hxa | hxt
      · subst hxa; exact le_of_lt hlt
      · exact h.1 x hxt
    · simp only [insK, if_neg hlt]
      rw [List.pairwise_cons]
      refine ⟨fun x hx => ?_, List.pairwise_cons.mpr h⟩
      rcases List.mem_cons.mp hx with hxb | hxt
      · subst hxb; exact le_of_not_lt hlt
      · exact le_trans (le_of_not_lt hlt) (h.1 x hxt)

theorem sortK_sorted {α β : Type} [LinearOrder β] (kf : α → β) :
    ∀ t : List α, (sortK kf t).Pairwise fun x y => kf x ≤ kf y
  | [] => List.Pairwise.nil
  | a :: t => insK_sorted kf a (sortK kf t) (sortK_sorted kf t)

theorem mem_sortK {α β : Type} [LinearOrder β] (kf : α → β) (t : List α)
    (x : α) : x ∈ sortK kf t ↔ x ∈ t :=
  (sortK_perm kf t).mem_iff

/-!
## Lemmas about the association-list map
-/

theorem lookupRing_cons (e : Pt × Ring) (t : Connections) (p : Pt) :
    lookupRing (e :: t) p = if e.1 = p then some e.2 else lookupRing t p := by
  unfold lookupRing
  by_cases he : e.1 = p
  · rw [List.find?_cons_of_pos _ (by simp [he]), if_pos he]; rfl
  · rw [List.find?_cons_of_neg _ (by simp [he]), if_neg he]

theorem containsKey_cons (e : Pt × Ring) (t : Connections) (p : Pt) :
    containsKey (e :: t) p = (decide (e.1 = p) || containsKey t p) := by
  simp [containsKey]

theorem lookup_isSome_eq_containsKey (c : Connections) (p : Pt) :
    (lookupRing c p).isSome = containsKey c p := by
  induction c with
  | nil => rfl
  | cons e t ih =>
    rw [lookupRing_cons, containsKey_cons]
    by_cases he : e.1 = p <;> simp [he, ih]

theorem lookup_mem {c : Connections} {p : Pt} {r : Ring}
    (h : lookupRing c p = some r) : (p, r) ∈ c := by
  induction c with
  | nil => simp [lookupRing] at h
  | cons e t ih =>
    rw [lookupRing_cons] at h
    by_cases he : e.1 = p
    · rw [if_pos he] at h
      have her : e = (p, r) := by
        rcases e with ⟨k, rr⟩
        simp only [Option.some.injEq] at h
        simp_all
      rw [← her]
      exact List.mem_cons_self e t
    · rw [if_neg he] at h
      exact List.mem_cons_of_mem _ (ih h)

theorem contains_of_lookup_some {c : Connections} {p : Pt} {r : Ring}
    (h : lookupRing c p = some r) : containsKey c p = true := by
  rw [← lookup_isSome_eq_containsKey, h]; rfl

theorem lookup_none_of_not_contains {c : Connections} {p : Pt}
    (h : containsKey c p = false) : lookupRing c p = none := by
  have hs := lookup_isSome_eq_containsKey c p
  rw [h] at hs
  exact Option.not_isSome_iff_eq_none.mp (by simp [hs])

theorem lookup_mapReplace_self {c : Connections} {p : Pt} (r : Ring)
    (hc : containsKey c p = true) :
    lookupRing (c.map fun e => if e.1 = p then (p, r) else e) p = some r := by
  induction c with
  | nil => simp [containsKey] at hc
  | cons e t ih =>
    rw [List.map_cons, lookupRing_cons]
    by_cases he : e.1 = p
    · simp [he]
    · rw [containsKey_cons] at hc
      simp [he] at hc
      simp [he, ih hc]

theorem lookup_mapReplace_ne {c : Connections} {p : Pt} (r : Ring) {x : Pt}
    (hx : x ≠ p) :
    lookupRing (c.map fun e => if e.1 = p then (p, r) else e) x =
      lookupRing c x := by
  induction c with
  | nil => rfl
  | cons e t ih =>
    rw [List.map_cons, lookupRing_cons, lookupRing_cons]
    by_cases he : e.1 = p
    · have : ¬(p = x) := fun hh => hx hh.symm
      simp [he, this, ih]
    · by_cases hex : e.1 = x
      · simp [he, hex, hx]
      · simp [he, hex, ih]

theorem lookup_append (c d : Connections) (x : Pt) :
    lookupRing (c ++ d) x =
      (lookupRing c x).orElse fun _ => lookupRing d x := by
  induction c with
  | nil => simp [lookupRing]
  | cons e t ih =>
    rw [List.cons_append, lookupRing_cons, lookupRing_cons]
    by_cases he : e.1 = x <;> simp [he, ih]

/-- Master description of a key update. -/
theorem lookupRing_setRing (c : Connections) (p : Pt) (r : Ring) (x : Pt) :
    lookupRing (setRing c p r) x = if x = p then some r else lookupRing c x := by
  unfold setRing
  by_cases hc : containsKey c p
  · rw [if_pos hc]
    by_cases hx : x = p
    · subst hx; rw [if_pos rfl]; exact lookup_mapReplace_self r hc
    · rw [if_neg hx]; exact lookup_mapReplace_ne r hx
  · rw [if_neg hc]
    rw [lookup_append]
    by_cases hx : x = p
    · subst hx
      rw [lookup_none_of_not_contains (Bool.eq_false_iff.mpr hc)]
      simp [lookupRing]
    · rw [if_neg hx]
      have hpx : ¬(p = x) := fun hh => hx hh.symm
      have : lookupRing [(p, r)] x = none := by
        rw [lookupRing_cons]
        simp [hpx, lookupRing]
      rw [this]
      rcases lookupRing c x with _ | rr <;> rfl

theorem containsKey_setRing (c : Connections) (p x : Pt) (r : Ring) :
    containsKey (setRing c p r) x = (containsKey c x || decide (x = p)) := by
  rw [← lookup_isSome_eq_containsKey, lookupRing_setRing]
  by_cases hx : x = p
  · simp [hx]
  · simp [hx, lookup_isSome_eq_containsKey]

theorem keys_setRing_of_contains (c : Connections) (p : Pt) (r : Ring)
    (hc : containsKey c p = true) :
    (setRing c p r).map (fun e => e.1) = c.map fun e => e.1 := by
  unfold setRing
  rw [if_pos hc, List.map_map]
  apply List.map_congr_left
  intro e _
  by_cases hep : e.1 = p
  · simp [Function.comp, hep]
  · simp [Function.comp, hep]

/-!
## Ring operation lemmas and the structural invariants
-/

theorem center_addConnection (t : Pt) (r : Ring) :
    (addConnection t r).center = r.center := rfl

theorem mem_addConnection (t : Pt) (r : Ring) (l : Link) :
    l ∈ (addConnection t r).links ↔
      l ∈ r.links ∨ l = ⟨t, angOf (pminus t r.center)⟩ := by
  unfold addConnection sortLinks
  rw [mem_sortK]
  simp

theorem sorted_addConnection (t : Pt) (r : Ring) :
    ((addConnection t r).links).Pairwise
      fun a b => akeyL a.angle ≤ akeyL b.angle := by
  unfold addConnection sortLinks
  exact sortK_sorted _ _

theorem center_removeConnection (t : Pt) (r : Ring) :
    (removeConnection t r).center = r.center := rfl

theorem mem_removeConnection (t : Pt) (r : Ring) (l : Link) :
    l ∈ (removeConnection t r).links ↔ l ∈ r.links ∧ l.point ≠ t := by
  unfold removeConnection
  simp

theorem sublist_removeConnection (t : Pt) (r : Ring) :
    ((removeConnection t r).links).Sublist r.links :=
  List.filter_sublist _

/-- The links stored at key `x` (empty when absent). -/
theorem ringOfD_eq {c : Connections} {x : Pt} {r : Ring}
    (h : lookupRing c x = some r) : ringOfD c x = r.links := by
  simp [ringOfD, h]

theorem ringOfD_none {c : Connections} {x : Pt}
    (h : lookupRing c x = none) : ringOfD c x = [] := by
  simp [ringOfD, h]

/-- Sorted ascending by angle. -/
def LinkSorted (ls : List Link) : Prop :=
  ls.Pairwise fun a b => akeyL a.angle ≤ akeyL b.angle

/-- The symmetry invariant of the claims: every link `p → q` stored in the
map is matched by a link `q → p` stored in the map. -/
def SymmP (c : Connections) : Prop :=
  ∀ e ∈ c, ∀ l ∈ ringOfD c e.1, ∃ l2 ∈ ringOfD c l.point, l2.point = e.1

/-- Ring well-formedness: the stored ring of every key is centered on its key,
its links are sorted ascending by angle, every link carries exactly the
`atan2` angle of the difference from center to target, and that angle lies in
the representable range `(-π, π]` (strictly above the explicit `-π`, at most
the key of direction `(-1, 0)`, i.e. `π`). -/
def WFc (c : Connections) : Prop :=
  ∀ e ∈ c, (lookupRing c e.1).map Ring.center = some e.1 ∧
    LinkSorted (ringOfD c e.1) ∧
    ∀ l ∈ ringOfD c e.1, l.angle = angOf (pminus l.point e.1) ∧
      akeyL Angle.negPi < akeyL l.angle ∧ akeyL l.angle ≤ akeyL (Angle.dir (-1) 0)

/-- At most one link per distinct target point. -/
def NodupTargets (c : Connections) : Prop :=
  ∀ e ∈ c, ((ringOfD c e.1).map Link.point).Nodup

/-- Every angle `atan2` actually produces lies in `(-π, π]` in the key
order: strictly above the key of `-π` and at most the key of `π`. -/
theorem akey_angOf_range (d : Pt) :
    akeyL Angle.negPi < akeyL (angOf d) ∧
      akeyL (angOf d) ≤ akeyL (Angle.dir (-1) 0) := by
  have hpi : akeyL (Angle.dir (-1) 0) = toLex ((4 : ℕ), (0 : ℚ)) := by
    simp only [akeyL]
    norm_num
  simp only [akeyL, angOf, hpi]
  rcases lt_trichotomy d.y 0 with hy | hy | hy
  · rw [if_pos hy]
    exact ⟨Prod.Lex.left _ _ (by norm_num), le_of_lt (Prod.Lex.left _ _ (by norm_num))⟩
  · rw [if_neg (by simp [hy]), if_neg (by simp [hy])]
    by_cases hx : 0 ≤ d.x
    · rw [if_pos hx]
      exact ⟨Prod.Lex.left _ _ (by norm_num), le_of_lt (Prod.Lex.left _ _ (by norm_num))⟩
    · rw [if_neg hx]
      exact ⟨Prod.Lex.left _ _ (by norm_num), le_refl _⟩
  · rw [if_neg (by linarith), if_pos hy]
    exact ⟨Prod.Lex.left _ _ (by norm_num), le_of_lt (Prod.Lex.left _ _ (by norm_num))⟩

/-!
## Characterizations of `connect` and `disconnect`
-/

theorem connect_ok_elim {p q : Pt} {c c2 : Connections}
    (h : connect p q c = .ok c2) :
    ∃ rp rq, lookupRing c p = some rp ∧
      lookupRing (setRing c p (addConnection q rp)) q = some rq ∧
      c2 = setRing (setRing c p (addConnection q rp)) q (addConnection p rq) := by
  unfold connect at h
  rcases hp : lookupRing c p with _ | rp
  · rw [hp] at h; cases h
  · rw [hp] at h
    simp only at h
    rcases hq : lookupRing (setRing c p (addConnection q rp)) q with _ | rq
    · rw [hq] at h; cases h
    · rw [hq] at h
      simp only [Except.ok.injEq] at h
      exact ⟨rp, rq, rfl, hq, h.symm⟩

theorem disconnect_ok_elim {p q : Pt} {c c2 : Connections}
    (h : disconnect p q c = .ok c2) :
    ∃ rp rq, lookupRing c p = some rp ∧
      lookupRing (setRing c p (removeConnection q rp)) q = some rq ∧
      c2 = setRing (setRing c p (removeConnection q rp)) q (removeConnection p rq) := by
  unfold disconnect at h
  rcases hp : lookupRing c p with _ | rp
  · rw [hp] at h; cases h
  · rw [hp] at h
    simp only at h
    rcases hq : lookupRing (setRing c p (removeConnection q rp)) q with _ | rq
    · rw [hq] at h; cases h
    · rw [hq] at h
      simp only [Except.ok.injEq] at h
      exact ⟨rp, rq, rfl, hq, h.symm⟩

theorem connect_keys {p q : Pt} {c c2 : Connections}
    (h : connect p q c = .ok c2) :
    c2.map (fun e => e.1) = c.map fun e => e.1 := by
  obtain ⟨rp, rq, hp, hq, hc2⟩ := connect_ok_elim h
  rw [hc2, keys_setRing_of_contains _ _ _ (contains_of_lookup_some hq),
    keys_setRing_of_contains _ _ _ (contains_of_lookup_some hp)]

theorem disconnect_keys {p q : Pt} {c c2 : Connections}
    (h : disconnect p q c = .ok c2) :
    c2.map (fun e => e.1) = c.map fun e => e.1 := by
  obtain ⟨rp, rq, hp, hq, hc2⟩ := disconnect_ok_elim h
  rw [hc2, keys_setRing_of_contains _ _ _ (contains_of_lookup_some hq),
    keys_setRing_of_contains _ _ _ (contains_of_lookup_some hp)]

theorem connect_contains {p q : Pt} {c c2 : Connections}
    (h : connect p q c = .ok c2) (x : Pt) :
    containsKey c2 x = containsKey c x := by
  obtain ⟨rp, rq, hp, hq, hc2⟩ := connect_ok_elim h
  rw [lookupRing_setRing] at hq
  rw [← lookup_isSome_eq_containsKey, ← lookup_isSome_eq_containsKey,
    hc2, lookupRing_setRing, lookupRing_setRing]
  by_cases hxq : x = q
  · subst hxq
    rw [if_pos rfl]
    by_cases hxp : x = p
    · rw [if_pos hxp] at hq
      subst hxp
      rw [hp]
      rfl
    · rw [if_neg hxp] at hq
      rw [hq]
      rfl
  · rw [if_neg hxq]
    by_cases hxp : x = p
    · subst hxp
      rw [if_pos rfl, hp]
      rfl
    · rw [if_neg hxp]


theorem disconnect_contains {p q : Pt} {c c2 : Connections}
    (h : disconnect p q c = .ok c2) (x : Pt) :
    containsKey c2 x = containsKey c x := by
  obtain ⟨rp, rq, hp, hq, hc2⟩ := disconnect_ok_elim h
  rw [lookupRing_setRing] at hq
  rw [← lookup_isSome_eq_containsKey, ← lookup_isSome_eq_containsKey,
    hc2, lookupRing_setRing, lookupRing_setRing]
  by_cases hxq : x = q
  · subst hxq
    rw [if_pos rfl]
    by_cases hxp : x = p
    · rw [if_pos hxp] at hq
      subst hxp
      rw [hp]
      rfl
    · rw [if_neg hxp] at hq
      rw [hq]
      rfl
  · rw [if_neg hxq]
    by_cases hxp : x = p
    · subst hxp
      rw [if_pos rfl, hp]
      rfl
    · rw [if_neg hxp]


/-- Links present after `connect`: every old link plus the two new ones
(nothing else). -/
theorem connect_ringOfD {p q : Pt} {c c2 : Connections}
    (h : connect p q c = .ok c2) :
    (∀ x l, l ∈ ringOfD c x → l ∈ ringOfD c2 x) ∧
    (∀ x l, l ∈ ringOfD c2 x →
      l ∈ ringOfD c x ∨ (x = p ∧ l.point = q) ∨ (x = q ∧ l.point = p)) ∧
    (∃ l ∈ ringOfD c2 p, l.point = q) ∧
    (∃ l ∈ ringOfD c2 q, l.point = p) := by
  obtain ⟨rp, rq, hp, hq, hc2⟩ := connect_ok_elim h
  rw [lookupRing_setRing] at hq
  have hl2 : ∀ x, lookupRing c2 x =
      if x = q then some (addConnection p rq)
      else if x = p then some (addConnection q rp) else lookupRing c x := by
    intro x
    rw [hc2, lookupRing_setRing, lookupRing_setRing]
  by_cases hqp : q = p
  · subst hqp
    rw [if_pos rfl] at hq
    have hrq : rq = addConnection q rp := by
      simpa using hq.symm
    have hring : ∀ x, ringOfD c2 x =
        if x = q then (addConnection q (addConnection q rp)).links
        else ringOfD c x := by
      intro x
      by_cases hxq : x = q
      · subst hxq
        rw [if_pos rfl, ringOfD_eq (by rw [hl2, if_pos rfl, hrq])]
      · rw [if_neg hxq]
        have := hl2 x
        rw [if_neg hxq, if_neg hxq] at this
        unfold ringOfD
        rw [this]
    have hcen : (addConnection q rp).center = rp.center := rfl
    refine ⟨?_, ?_, ?_, ?_⟩
    · intro x l hl
      rw [hring]
      by_cases hxq : x = q
      · subst hxq
        rw [if_pos rfl, mem_addConnection, mem_addConnection]
        left; left
        rwa [ringOfD_eq hp] at hl
      · rwa [if_neg hxq]
    · intro x l hl
      rw [hring] at hl
      by_cases hxq : x = q
      · subst hxq
        rw [if_pos rfl, mem_addConnection, mem_addConnection] at hl
        rcases hl with (hl | hl) | hl
        · left; rwa [ringOfD_eq hp]
        · right; left; exact ⟨rfl, by rw [hl]⟩
        · right; left; exact ⟨rfl, by rw [hl]⟩
      · rw [if_neg hxq] at hl
        exact Or.inl hl
    · refine ⟨⟨q, angOf (pminus q (addConnection q rp).center)⟩, ?_, rfl⟩
      rw [hring, if_pos rfl, mem_addConnection]
      right; rfl
    · refine ⟨⟨q, angOf (pminus q (addConnection q rp).center)⟩, ?_, rfl⟩
      rw [hring, if_pos rfl, mem_addConnection]
      right; rfl
  · rw [if_neg hqp] at hq
    have hring : ∀ x, ringOfD c2 x =
        if x = q then (addConnection p rq).links
        else if x = p then (addConnection q rp).links
        else ringOfD c x := by
      intro x
      by_cases hxq : x = q
      · subst hxq
        rw [if_pos rfl, ringOfD_eq (by rw [hl2, if_pos rfl])]
      · by_cases hxp : x = p
        · subst hxp
          rw [if_neg hxq, if_pos rfl,
            ringOfD_eq (by rw [hl2, if_neg hxq, if_pos rfl])]
        · rw [if_neg hxq, if_neg hxp]
          have := hl2 x
          rw [if_neg hxq, if_neg hxp] at this
          unfold ringOfD
          rw [this]
    have hrdq : ringOfD c q = rq.links := ringOfD_eq hq
    have hrdp : ringOfD c p = rp.links := ringOfD_eq hp
    refine ⟨?_, ?_, ?_, ?_⟩
    · intro x l hl
      rw [hring]
      by_cases hxq : x = q
      · subst hxq
        rw [if_pos rfl, mem_addConnection]
        left; rwa [← hrdq]
      · by_cases hxp : x = p
        · subst hxp
          rw [if_neg hxq, if_pos rfl, mem_addConnection]
          left; rwa [← hrdp]
        · rwa [if_neg hxq, if_neg hxp]
    · intro x l hl
      rw [hring] at hl
      by_cases hxq : x = q
      · subst hxq
        rw [if_pos rfl, mem_addConnection] at hl
        rcases hl with hl | hl
        · left; rwa [hrdq]
        · right; right; exact ⟨rfl, by rw [hl]⟩
      · by_cases hxp : x = p
        · subst hxp
          rw [if_neg hxq, if_pos rfl, mem_addConnection] at hl
          rcases hl with hl | hl
          · left; rwa [hrdp]
          · right; left; exact ⟨rfl, by rw [hl]⟩
        · rw [if_neg hxq, if_neg hxp] at hl
          exact Or.inl hl
    · refine ⟨⟨q, angOf (pminus q rp.center)⟩, ?_, rfl⟩
      have hpq : ¬(p = q) := fun hh => hqp hh.symm
      rw [hring, if_neg hpq, if_pos rfl, mem_addConnection]
      right; rfl
    · refine ⟨⟨p, angOf (pminus p rq.center)⟩, ?_, rfl⟩
      rw [hring, if_pos rfl, mem_addConnection]
      right; rfl

/-- Links present after `disconnect`: exactly the old links apart from the
two directions of the removed edge; moreover each updated ring is a sublist
of the old one. -/
theorem disconnect_ringOfD {p q : Pt} {c c2 : Connections}
    (h : disconnect p q c = .ok c2) :
    (∀ x l, l ∈ ringOfD c2 x → l ∈ ringOfD c x ∧
      ¬(x = p ∧ l.point = q) ∧ ¬(x = q ∧ l.point = p)) ∧
    (∀ x l, l ∈ ringOfD c x → ¬(x = p ∧ l.point = q) →
      ¬(x = q ∧ l.point = p) → l ∈ ringOfD c2 x) ∧
    (∀ x, (ringOfD c2 x).Sublist (ringOfD c x)) := by
  obtain ⟨rp, rq, hp, hq, hc2⟩ := disconnect_ok_elim h
  rw [lookupRing_setRing] at hq
  have hl2 : ∀ x, lookupRing c2 x =
      if x = q then some (removeConnection p rq)
      else if x = p then some (removeConnection q rp) else lookupRing c x := by
    intro x
    rw [hc2, lookupRing_setRing, lookupRing_setRing]
  by_cases hqp : q = p
  · subst hqp
    rw [if_pos rfl] at hq
    have hrq : rq = removeConnection q rp := by
      simpa using hq.symm
    have hring : ∀ x, ringOfD c2 x =
        if x = q then (removeConnection q (removeConnection q rp)).links
        else ringOfD c x := by
      intro x
      by_cases hxq : x = q
      · subst hxq
        rw [if_pos rfl, ringOfD_eq (by rw [hl2, if_pos rfl, hrq])]
      · rw [if_neg hxq]
        have := hl2 x
        rw [if_neg hxq, if_neg hxq] at this
        unfold ringOfD
        rw [this]
    refine ⟨?_, ?_, ?_⟩
    · intro x l hl
      rw [hring] at hl
      by_cases hxq : x = q
      · subst hxq
        rw [if_pos rfl, mem_removeConnection, mem_removeConnection] at hl
        refine ⟨by rw [ringOfD_eq hp]; exact hl.1.1, ?_, ?_⟩
        · rintro ⟨_, hlq⟩; exact hl.1.2 hlq
        · rintro ⟨_, hlq⟩; exact hl.1.2 hlq
      · rw [if_neg hxq] at hl
        refine ⟨hl, ?_, ?_⟩
        · rintro ⟨hxp, _⟩; exact hxq hxp
        · rintro ⟨hxp, _⟩; exact hxq hxp
    · intro x l hl hn1 hn2
      rw [hring]
      by_cases hxq : x = q
      · subst hxq
        rw [if_pos rfl, mem_removeConnection, mem_removeConnection]
        refine ⟨⟨by rwa [ringOfD_eq hp] at hl, ?_⟩, ?_⟩
        · exact fun hlq => hn1 ⟨rfl, hlq⟩
        · exact fun hlq => hn1 ⟨rfl, hlq⟩
      · rwa [if_neg hxq]
    · intro x
      rw [hring]
      by_cases hxq : x = q
      · subst hxq
        rw [if_pos rfl, ringOfD_eq hp]
        exact (sublist_removeConnection _ _).trans (sublist_removeConnection _ _)
      · rw [if_neg hxq]
  · rw [if_neg hqp] at hq
    have hring : ∀ x, ringOfD c2 x =
        if x = q then (removeConnection p rq).links
        else if x = p then (removeConnection q rp).links
        else ringOfD c x := by
      intro x
      by_cases hxq : x = q
      · subst hxq
        rw [if_pos rfl, ringOfD_eq (by rw [hl2, if_pos rfl])]
      · by_cases hxp : x = p
        · subst hxp
          rw [if_neg hxq, if_pos rfl,
            ringOfD_eq (by rw [hl2, if_neg hxq, if_pos rfl])]
        · rw [if_neg hxq, if_neg hxp]
          have := hl2 x
          rw [if_neg hxq, if_neg hxp] at this
          unfold ringOfD
          rw [this]
    have hrdq : ringOfD c q = rq.links := ringOfD_eq hq
    have hrdp : ringOfD c p = rp.links := ringOfD_eq hp
    refine ⟨?_, ?_, ?_⟩
    · intro x l hl
      rw [hring] at hl
      by_cases hxq : x = q
      · subst hxq
        rw [if_pos rfl, mem_removeConnection] at hl
        refine ⟨by rw [hrdq]; exact hl.1, ?_, ?_⟩
        · rintro ⟨hxp, _⟩; exact hqp hxp
        · rintro ⟨_, hlp⟩; exact hl.2 hlp
      · by_cases hxp : x = p
        · subst hxp
          rw [if_neg hxq, if_pos rfl, mem_removeConnection] at hl
          refine ⟨by rw [hrdp]; exact hl.1, ?_, ?_⟩
          · rintro ⟨_, hlq⟩; exact hl.2 hlq
          · rintro ⟨hxq2, _⟩; exact hxq hxq2
        · rw [if_neg hxq, if_neg hxp] at hl
          refine ⟨hl, ?_, ?_⟩
          · rintro ⟨hxp2, _⟩; exact hxp hxp2
          · rintro ⟨hxq2, _⟩; exact hxq hxq2
    · intro x l hl hn1 hn2
      rw [hring]
      by_cases hxq : x = q
      · subst hxq
        rw [if_pos rfl, mem_removeConnection]
        exact ⟨by rwa [← hrdq], fun hlp => hn2 ⟨rfl, hlp⟩⟩
      · by_cases hxp : x = p
        · subst hxp
          rw [if_neg hxq, if_pos rfl, mem_removeConnection]
          exact ⟨by rwa [← hrdp], fun hlq => hn1 ⟨rfl, hlq⟩⟩
        · rwa [if_neg hxq, if_neg hxp]
    · intro x
      rw [hring]
      by_cases hxq : x = q
      · subst hxq
        rw [if_pos rfl, hrdq]
        exact sublist_removeConnection _ _
      · by_cases hxp : x = p
        · subst hxp
          rw [if_neg hxq, if_pos rfl, hrdp]
          exact sublist_removeConnection _ _
        · rw [if_neg hxq, if_neg hxp]

/-!
## Preservation of the invariants by connect and disconnect
-/

theorem mem_setRing_cases {c : Connections} {p : Pt} {r : Ring}
    {e : Pt × Ring} (h : e ∈ setRing c p r) :
    e = (p, r) ∨ (e ∈ c ∧ e.1 ≠ p) := by
  unfold setRing at h
  by_cases hc : containsKey c p
  · rw [if_pos hc] at h
    rcases List.mem_map.mp h with ⟨e2, he2, hfe⟩
    by_cases hep : e2.1 = p
    · rw [if_pos hep] at hfe
      exact Or.inl hfe.symm
    · rw [if_neg hep] at hfe
      exact Or.inr ⟨hfe ▸ he2, hfe ▸ hep⟩
  · rw [if_neg hc] at h
    rcases List.mem_append.mp h with he | he
    · refine Or.inr ⟨he, fun hep => ?_⟩
      have : containsKey c p = true := by
        unfold containsKey
        rw [List.any_eq_true]
        exact ⟨e, he, by simpa using hep⟩
      exact hc this
    · exact Or.inl (by simpa using he)

theorem key_mem_transfer {c c2 : Connections}
    (hk : c2.map (fun e => e.1) = c.map fun e => e.1) :
    ∀ e ∈ c2, ∃ e2 ∈ c, e2.1 = e.1 := by
  intro e he
  have h1 : e.1 ∈ c2.map fun e => e.1 := List.mem_map_of_mem _ he
  rw [hk] at h1
  rcases List.mem_map.mp h1 with ⟨e2, he2, hk2⟩
  exact ⟨e2, he2, hk2⟩

theorem contains_of_ringOfD_mem {c : Connections} {x : Pt} {l : Link}
    (h : l ∈ ringOfD c x) : containsKey c x = true := by
  rcases hl : lookupRing c x with _ | r
  · rw [ringOfD_none hl] at h
    cases h
  · exact contains_of_lookup_some hl

theorem connect_symm {p q : Pt} {c c2 : Connections} (hs : SymmP c)
    (h : connect p q c = .ok c2) : SymmP c2 := by
  obtain ⟨hsup, hsub, hnewp, hnewq⟩ := connect_ringOfD h
  intro e he l hl
  rcases hsub e.1 l hl with hold | ⟨hxp, hlq⟩ | ⟨hxq, hlp⟩
  · rcases key_mem_transfer (connect_keys h) e he with ⟨e2, he2, hkey⟩
    rcases hs e2 he2 l (by rwa [hkey]) with ⟨l2, hl2, hl2p⟩
    exact ⟨l2, hsup _ _ hl2, by rwa [hkey] at hl2p⟩
  · rcases hnewq with ⟨l2, hl2, hl2p⟩
    exact ⟨l2, by rwa [hlq], by rw [hl2p, hxp]⟩
  · rcases hnewp with ⟨l2, hl2, hl2p⟩
    exact ⟨l2, by rwa [hlp], by rw [hl2p, hxq]⟩

theorem disconnect_symm {p q : Pt} {c c2 : Connections} (hs : SymmP c)
    (h : disconnect p q c = .ok c2) : SymmP c2 := by
  obtain ⟨hsub, hsup, _⟩ := disconnect_ringOfD h
  intro e he l hl
  obtain ⟨hold, hn1, hn2⟩ := hsub e.1 l hl
  rcases key_mem_transfer (disconnect_keys h) e he with ⟨e2, he2, hkey⟩
  rcases hs e2 he2 l (by rwa [hkey]) with ⟨l2, hl2, hl2p⟩
  rw [hkey] at hl2p
  refine ⟨l2, hsup l.point l2 hl2 ?_ ?_, hl2p⟩
  · rintro ⟨hlp, hl2q⟩
    exact hn2 ⟨by rw [hl2p] at hl2q; exact hl2q ▸ rfl, by rw [hlp]⟩
  · rintro ⟨hlq, hl2pp⟩
    exact hn1 ⟨by rw [hl2p] at hl2pp; exact hl2pp ▸ rfl, by rw [hlq]⟩

/-- `setRing` with a well-formed ring preserves map well-formedness. -/
theorem wf_setRing {c : Connections} {p : Pt} {r : Ring} (hw : WFc c)
    (hcen : r.center = p) (hsort : LinkSorted r.links)
    (hang : ∀ l ∈ r.links, l.angle = angOf (pminus l.point p)) :
    WFc (setRing c p r) := by
  intro e he
  have hlook : ∀ x, lookupRing (setRing c p r) x =
      if x = p then some r else lookupRing c x := fun x => lookupRing_setRing c p r x
  by_cases hkey : e.1 = p
  · rw [hkey]
    have hr : lookupRing (setRing c p r) p = some r := by rw [hlook, if_pos rfl]
    have hrd : ringOfD (setRing c p r) p = r.links := ringOfD_eq hr
    refine ⟨by rw [hr, Option.map_some', hcen], by rwa [hrd], ?_⟩
    intro l hl
    rw [hrd] at hl
    exact ⟨hang l hl, (hang l hl) ▸ akey_angOf_range (pminus l.point p)⟩
  · rcases mem_setRing_cases he with hep | ⟨hec, _⟩
    · exact absurd (by rw [hep]) hkey
    · have hl : lookupRing (setRing c p r) e.1 = lookupRing c e.1 := by
        rw [hlook, if_neg hkey]
      have hrd : ringOfD (setRing c p r) e.1 = ringOfD c e.1 := by
        unfold ringOfD
        rw [hl]
      obtain ⟨h1, h2, h3⟩ := hw e hec
      exact ⟨by rw [hl]; exact h1, by rwa [hrd], by rw [hrd]; exact h3⟩

theorem connect_wf {p q : Pt} {c c2 : Connections} (hw : WFc c)
    (h : connect p q c = .ok c2) : WFc c2 := by
  obtain ⟨rp, rq, hp, hq, hc2⟩ := connect_ok_elim h
  have hpmem : (p, rp) ∈ c := lookup_mem hp
  have hpcen : rp.center = p := by
    have := (hw (p, rp) hpmem).1
    rw [hp, Option.map_some'] at this
    simpa using this
  have hpang : ∀ l ∈ rp.links, l.angle = angOf (pminus l.point p) := by
    intro l hl
    have := (hw (p, rp) hpmem).2.2 l (by rw [ringOfD_eq hp]; exact hl)
    exact this.1
  have hw1 : WFc (setRing c p (addConnection q rp)) := by
    refine wf_setRing hw (by rw [center_addConnection, hpcen]) (sorted_addConnection _ _) ?_
    intro l hl
    rcases (mem_addConnection _ _ _).mp hl with hl | hl
    · exact hpang l hl
    · rw [hl]
      simp only [center_addConnection] at hl ⊢
      rw [hpcen]
  have hqmem : (q, rq) ∈ setRing c p (addConnection q rp) := lookup_mem hq
  have hqcen : rq.center = q := by
    have := (hw1 (q, rq) hqmem).1
    rw [hq, Option.map_some'] at this
    simpa using this
  have hqang : ∀ l ∈ rq.links, l.angle = angOf (pminus l.point q) := by
    intro l hl
    have := (hw1 (q, rq) hqmem).2.2 l (by rw [ringOfD_eq hq]; exact hl)
    exact this.1
  rw [hc2]
  refine wf_setRing hw1 (by rw [center_addConnection, hqcen]) (sorted_addConnection _ _) ?_
  intro l hl
  rcases (mem_addConnection _ _ _).mp hl with hl | hl
  · exact hqang l hl
  · rw [hl]
    simp only [center_addConnection]
    rw [hqcen]

theorem removeConnection_sorted {t : Pt} {r : Ring}
    (hs : LinkSorted r.links) : LinkSorted (removeConnection t r).links :=
  List.Pairwise.sublist (sublist_removeConnection t r) hs

theorem disconnect_wf {p q : Pt} {c c2 : Connections} (hw : WFc c)
    (h : disconnect p q c = .ok c2) : WFc c2 := by
  obtain ⟨rp, rq, hp, hq, hc2⟩ := disconnect_ok_elim h
  have hpmem : (p, rp) ∈ c := lookup_mem hp
  have hpcen : rp.center = p := by
    have := (hw (p, rp) hpmem).1
    rw [hp, Option.map_some'] at this
    simpa using this
  have hpsort : LinkSorted rp.links := by
    have := (hw (p, rp) hpmem).2.1
    rwa [ringOfD_eq hp] at this
  have hpang : ∀ l ∈ rp.links, l.angle = angOf (pminus l.point p) := by
    intro l hl
    exact ((hw (p, rp) hpmem).2.2 l (by rw [ringOfD_eq hp]; exact hl)).1
  have hw1 : WFc (setRing c p (removeConnection q rp)) := by
    refine wf_setRing hw (by rw [center_removeConnection, hpcen])
      (removeConnection_sorted hpsort) ?_
    intro l hl
    exact hpang l ((mem_removeConnection _ _ _).mp hl).1
  have hqmem : (q, rq) ∈ setRing c p (removeConnection q rp) := lookup_mem hq
  have hqcen : rq.center = q := by
    have := (hw1 (q, rq) hqmem).1
    rw [hq, Option.map_some'] at this
    simpa using this
  have hqsort : LinkSorted rq.links := by
    have := (hw1 (q, rq) hqmem).2.1
    rwa [ringOfD_eq hq] at this
  have hqang : ∀ l ∈ rq.links, l.angle = angOf (pminus l.point q) := by
    intro l hl
    exact ((hw1 (q, rq) hqmem).2.2 l (by rw [ringOfD_eq hq]; exact hl)).1
  rw [hc2]
  refine wf_setRing hw1 (by rw [center_removeConnection, hqcen])
    (removeConnection_sorted hqsort) ?_
  intro l hl
  exact hqang l ((mem_removeConnection _ _ _).mp hl).1

/-- Ring-level description of `connect` for distinct endpoints. -/
theorem connect_rings {p q : Pt} {c c2 : Connections} (hpq : p ≠ q)
    (h : connect p q c = .ok c2) :
    ∃ rp rq, lookupRing c p = some rp ∧ lookupRing c q = some rq ∧
      (∀ x, x ≠ p → x ≠ q → lookupRing c2 x = lookupRing c x) ∧
      lookupRing c2 p = some (addConnection q rp) ∧
      lookupRing c2 q = some (addConnection p rq) := by
  obtain ⟨rp, rq, hp, hq, hc2⟩ := connect_ok_elim h
  rw [lookupRing_setRing, if_neg (fun hh => hpq hh.symm)] at hq
  refine ⟨rp, rq, hp, hq, ?_, ?_, ?_⟩
  · intro x hxp hxq
    rw [hc2, lookupRing_setRing, lookupRing_setRing, if_neg hxq, if_neg hxp]
  · rw [hc2, lookupRing_setRing, lookupRing_setRing,
      if_neg (fun hh : p = q => hpq hh), if_pos rfl]
  · rw [hc2, lookupRing_setRing, if_pos rfl]

theorem disconnect_nodupTargets {p q : Pt} {c c2 : Connections}
    (hn : NodupTargets c) (h : disconnect p q c = .ok c2) : NodupTargets c2 := by
  obtain ⟨_, _, hsub⟩ := disconnect_ringOfD h
  intro e he
  rcases key_mem_transfer (disconnect_keys h) e he with ⟨e2, he2, hkey⟩
  have := hn e2 he2
  rw [hkey] at this
  exact List.Nodup.sublist (List.Sublist.map _ (hsub e.1)) this

theorem connect_nodupTargets {p q : Pt} {c c2 : Connections}
    (hn : NodupTargets c) (hpq : p ≠ q)
    (hfp : ∀ l ∈ ringOfD c p, l.point ≠ q)
    (hfq : ∀ l ∈ ringOfD c q, l.point ≠ p)
    (h : connect p q c = .ok c2) : NodupTargets c2 := by
  obtain ⟨rp, rq, hp, hq, hother, hp2, hq2⟩ := connect_rings hpq h
  have hrdp : ringOfD c p = rp.links := ringOfD_eq hp
  have hrdq : ringOfD c q = rq.links := ringOfD_eq hq
  intro e he
  rcases key_mem_transfer (connect_keys h) e he with ⟨e2, he2, hkey⟩
  have hnd := hn e2 he2
  rw [hkey] at hnd
  by_cases hxp : e.1 = p
  · rw [hxp, ringOfD_eq hp2]
    have hperm : ((addConnection q rp).links.map Link.point).Perm
        ((rp.links ++ [(⟨q, angOf (pminus q rp.center)⟩ : Link)]).map Link.point) :=
      (sortK_perm _ _).map _
    rw [List.Perm.nodup_iff hperm, List.map_append, List.nodup_append]
    refine ⟨by rw [hxp, hrdp] at hnd; exact hnd, by simp, ?_⟩
    intro t ht htq
    simp only [List.map_cons, List.map_nil, List.mem_singleton] at htq
    rcases List.mem_map.mp ht with ⟨l, hl, hlp⟩
    exact hfp l (by rwa [hrdp]) (by rw [hlp, htq])
  · by_cases hxq : e.1 = q
    · rw [hxq, ringOfD_eq hq2]
      have hperm : ((addConnection p rq).links.map Link.point).Perm
          ((rq.links ++ [(⟨p, angOf (pminus p rq.center)⟩ : Link)]).map Link.point) :=
        (sortK_perm _ _).map _
      rw [List.Perm.nodup_iff hperm, List.map_append, List.nodup_append]
      refine ⟨by rw [hxq, hrdq] at hnd; exact hnd, by simp, ?_⟩
      intro t ht htq
      simp only [List.map_cons, List.map_nil, List.mem_singleton] at htq
      rcases List.mem_map.mp ht with ⟨l, hl, hlp⟩
      exact hfq l (by rwa [hrdq]) (by rw [hlp, htq])
    · have : ringOfD c2 e.1 = ringOfD c e.1 := by
        unfold ringOfD
        rw [hother e.1 hxp hxq]
      rw [this]
      exact hnd

/-!
## The empty map and disjoint merges
-/

theorem emptyConnections_entry :
    ∀ (pts : List Pt) (acc : Connections),
      (∀ e ∈ acc, e.2 = ⟨e.1, []⟩) →
      ∀ e ∈ pts.foldl (fun c pt => setRing c pt ⟨pt, []⟩) acc, e.2 = ⟨e.1, []⟩ := by
  intro pts
  induction pts with
  | nil => intro acc h e he; exact h e he
  | cons pt pts ih =>
    intro acc h e he
    refine ih _ ?_ e he
    intro e2 he2
    rcases mem_setRing_cases he2 with he2 | ⟨he2, _⟩
    · rw [he2]
    · exact h e2 he2

theorem emptyConnections_ringOfD (pts : List Pt) (x : Pt) :
    ringOfD (emptyConnections pts) x = [] := by
  rcases hl : lookupRing (emptyConnections pts) x with _ | r
  · exact ringOfD_none hl
  · rw [ringOfD_eq hl]
    have := emptyConnections_entry pts [] (by intro e he; cases he) (x, r)
      (lookup_mem hl)
    rw [show ((x, r).2 : Ring) = r from rfl] at this
    rw [this]

theorem emptyConnections_contains :
    ∀ (pts : List Pt) (acc : Connections) (x : Pt),
      containsKey (pts.foldl (fun c pt => setRing c pt ⟨pt, []⟩) acc) x =
        (containsKey acc x || decide (x ∈ pts)) := by
  intro pts
  induction pts with
  | nil => intro acc x; simp
  | cons pt pts ih =>
    intro acc x
    rw [List.foldl_cons, ih, containsKey_setRing]
    by_cases hx : x = pt <;> simp [hx]

theorem emptyConnections_symm (pts : List Pt) : SymmP (emptyConnections pts) := by
  intro e he l hl
  rw [emptyConnections_ringOfD] at hl
  cases hl

theorem emptyConnections_wf (pts : List Pt) : WFc (emptyConnections pts) := by
  intro e he
  have hc : containsKey (emptyConnections pts) e.1 = true := by
    unfold containsKey
    rw [List.any_eq_true]
    exact ⟨e, he, by simp⟩
  have hiss : (lookupRing (emptyConnections pts) e.1).isSome = true := by
    rw [lookup_isSome_eq_containsKey]; exact hc
  cases hlk : lookupRing (emptyConnections pts) e.1 with
  | none => rw [hlk] at hiss; simp at hiss
  | some r =>
    have hr := emptyConnections_entry pts [] (by intro e2 he2; cases he2) (e.1, r)
      (lookup_mem hlk)
    have hrr : r = ⟨e.1, []⟩ := hr
    refine ⟨?_, ?_, ?_⟩
    · simp only [hlk, Option.map_some', hrr]
    · rw [emptyConnections_ringOfD]
      exact List.Pairwise.nil
    · rw [emptyConnections_ringOfD]
      intro l hl2
      cases hl2

theorem containsKey_append (c d : Connections) (x : Pt) :
    containsKey (c ++ d) x = (containsKey c x || containsKey d x) := by
  simp [containsKey, List.any_append]

theorem lookup_append_left {c : Connections} (d : Connections) {x : Pt}
    (h : containsKey c x = true) : lookupRing (c ++ d) x = lookupRing c x := by
  rw [lookup_append]
  rcases hl : lookupRing c x with _ | r
  · rw [← lookup_isSome_eq_containsKey, hl] at h
    cases h
  · rfl

theorem lookup_append_right {c : Connections} (d : Connections) {x : Pt}
    (h : containsKey c x = false) : lookupRing (c ++ d) x = lookupRing d x := by
  rw [lookup_append, lookup_none_of_not_contains h]
  rfl

theorem merge_eq_append {c d : Connections}
    (hdis : ∀ x, ¬(containsKey c x = true ∧ containsKey d x = true)) :
    mergeConnections c d = c ++ d := by
  unfold mergeConnections
  have h1 : (c.map fun e => match lookupRing d e.1 with
      | some r => (e.1, r)
      | none => e) = c := by
    conv_rhs => rw [← List.map_id c]
    apply List.map_congr_left
    intro e he
    have hc : containsKey c e.1 = true := by
      unfold containsKey
      rw [List.any_eq_true]
      exact ⟨e, he, by simp⟩
    have hd : containsKey d e.1 = false := by
      by_contra hh
      exact hdis e.1 ⟨hc, by revert hh; cases containsKey d e.1 <;> simp⟩
    rw [lookup_none_of_not_contains hd]
    rfl
  have h2 : (d.filter fun e => !containsKey c e.1) = d := by
    apply List.filter_eq_self.mpr
    intro e he
    have hd : containsKey d e.1 = true := by
      unfold containsKey
      rw [List.any_eq_true]
      exact ⟨e, he, by simp⟩
    have hc : containsKey c e.1 = false := by
      by_contra hh
      exact hdis e.1 ⟨by revert hh; cases containsKey c e.1 <;> simp, hd⟩
    rw [hc]
    rfl
  rw [h1, h2]

theorem ringOfD_append_left {c : Connections} (d : Connections) {x : Pt}
    (h : containsKey c x = true) : ringOfD (c ++ d) x = ringOfD c x := by
  unfold ringOfD
  rw [lookup_append_left d h]

theorem ringOfD_append_right {c : Connections} (d : Connections) {x : Pt}
    (h : containsKey c x = false) : ringOfD (c ++ d) x = ringOfD d x := by
  unfold ringOfD
  rw [lookup_append_right d h]

theorem symm_append {c d : Connections}
    (hdis : ∀ x, ¬(containsKey c x = true ∧ containsKey d x = true))
    (hs1 : SymmP c) (hs2 : SymmP d) : SymmP (c ++ d) := by
  intro e he l hl
  rcases List.mem_append.mp he with he1 | he2
  · have hc : containsKey c e.1 = true := by
      unfold containsKey
      rw [List.any_eq_true]
      exact ⟨e, he1, by simp⟩
    rw [ringOfD_append_left d hc] at hl
    rcases hs1 e he1 l hl with ⟨l2, hl2, hp⟩
    have hcl : containsKey c l.point = true := contains_of_ringOfD_mem hl2
    exact ⟨l2, by rw [ringOfD_append_left d hcl]; exact hl2, hp⟩
  · have hd : containsKey d e.1 = true := by
      unfold containsKey
      rw [List.any_eq_true]
      exact ⟨e, he2, by simp⟩
    have hc : containsKey c e.1 = false := by
      by_contra hh
      exact hdis e.1 ⟨by revert hh; cases containsKey c e.1 <;> simp, hd⟩
    rw [ringOfD_append_right d hc] at hl
    rcases hs2 e he2 l hl with ⟨l2, hl2, hp⟩
    have hdl : containsKey d l.point = true := contains_of_ringOfD_mem hl2
    have hcl : containsKey c l.point = false := by
      by_contra hh
      exact hdis l.point ⟨by revert hh; cases containsKey c l.point <;> simp, hdl⟩
    exact ⟨l2, by rw [ringOfD_append_right d hcl]; exact hl2, hp⟩

theorem wf_append {c d : Connections}
    (hdis : ∀ x, ¬(containsKey c x = true ∧ containsKey d x = true))
    (hw1 : WFc c) (hw2 : WFc d) : WFc (c ++ d) := by
  intro e he
  rcases List.mem_append.mp he with he1 | he2
  · have hc : containsKey c e.1 = true := by
      unfold containsKey
      rw [List.any_eq_true]
      exact ⟨e, he1, by simp⟩
    obtain ⟨h1, h2, h3⟩ := hw1 e he1
    refine ⟨?_, ?_, ?_⟩
    · rw [lookup_append_left d hc]; exact h1
    · rw [ringOfD_append_left d hc]; exact h2
    · rw [ringOfD_append_left d hc]; exact h3
  · have hd : containsKey d e.1 = true := by
      unfold containsKey
      rw [List.any_eq_true]
      exact ⟨e, he2, by simp⟩
    have hc : containsKey c e.1 = false := by
      by_contra hh
      exact hdis e.1 ⟨by revert hh; cases containsKey c e.1 <;> simp, hd⟩
    obtain ⟨h1, h2, h3⟩ := hw2 e he2
    refine ⟨?_, ?_, ?_⟩
    · rw [lookup_append_right d hc]; exact h1
    · rw [ringOfD_append_right d hc]; exact h2
    · rw [ringOfD_append_right d hc]; exact h3

/-!
## The bundled invariant carried through `delaunay`
-/

/-- Bundle: symmetry, ring well-formedness, and exact key coverage. -/
def Inv (P : Pt → Prop) (c : Connections) : Prop :=
  SymmP c ∧ WFc c ∧ ∀ x, containsKey c x = true ↔ P x

theorem inv_mono {P Q : Pt → Prop} {c : Connections} (h : Inv P c)
    (hiff : ∀ x, P x ↔ Q x) : Inv Q c :=
  ⟨h.1, h.2.1, fun x => (h.2.2 x).trans (hiff x)⟩

theorem connect_inv {p q : Pt} {c c2 : Connections} {P : Pt → Prop}
    (h : connect p q c = .ok c2) (hInv : Inv P c) : Inv P c2 :=
  ⟨connect_symm hInv.1 h, connect_wf hInv.2.1 h,
    fun x => (connect_contains h x) ▸ hInv.2.2 x⟩

theorem disconnect_inv {p q : Pt} {c c2 : Connections} {P : Pt → Prop}
    (h : disconnect p q c = .ok c2) (hInv : Inv P c) : Inv P c2 :=
  ⟨disconnect_symm hInv.1 h, disconnect_wf hInv.2.1 h,
    fun x => (disconnect_contains h x) ▸ hInv.2.2 x⟩

theorem append_inv {P Q : Pt → Prop} {c d : Connections}
    (hdis : ∀ x, ¬(P x ∧ Q x)) (h1 : Inv P c) (h2 : Inv Q d) :
    Inv (fun x => P x ∨ Q x) (c ++ d) := by
  have hdisK : ∀ x, ¬(containsKey c x = true ∧ containsKey d x = true) := by
    intro x ⟨ha, hb⟩
    exact hdis x ⟨(h1.2.2 x).mp ha, (h2.2.2 x).mp hb⟩
  refine ⟨symm_append hdisK h1.1 h2.1, wf_append hdisK h1.2.1 h2.2.1, ?_⟩
  intro x
  rw [containsKey_append]
  constructor
  · intro hx
    rcases Bool.or_eq_true_iff.mp hx with hx | hx
    · exact Or.inl ((h1.2.2 x).mp hx)
    · exact Or.inr ((h2.2.2 x).mp hx)
  · intro hx
    rcases hx with hx | hx
    · rw [(h1.2.2 x).mpr hx]; simp
    · rw [(h2.2.2 x).mpr hx]; simp

theorem empty_inv (pts : List Pt) : Inv (fun x => x ∈ pts) (emptyConnections pts) := by
  refine ⟨emptyConnections_symm pts, emptyConnections_wf pts, ?_⟩
  intro x
  have := emptyConnections_contains pts [] x
  unfold emptyConnections
  rw [this]
  simp [containsKey]

theorem refineCandidate_inv (P : Pt → Prop) :
    ∀ (fuel : ℕ) (conns : Connections) (owner : Pt) (dir : ℤ) (a b cand : Pt)
      (out : Connections × Pt),
      refineCandidate fuel conns owner dir a b cand = .ok out →
      Inv P conns → Inv P out.1 := by
  intro fuel
  induction fuel with
  | zero => intro conns owner dir a b cand out h hInv; cases h
  | succ fuel ih =>
    intro conns owner dir a b cand out h hInv
    rw [refineCandidate] at h
    split at h
    · cases h
    · split at h
      · cases h
      · cases h; exact hInv
      · split at h
        · split at h
          · cases h
          · rename_i conns1 hdc
            exact ih _ _ _ _ _ _ _ h (disconnect_inv hdc hInv)
        · cases h; exact hInv

theorem mergeLoop_inv (P : Pt → Prop) :
    ∀ (fuel : ℕ) (conns : Connections) (left right : Pt) (c2 : Connections),
      mergeLoop fuel conns left right = .ok c2 → Inv P conns → Inv P c2 := by
  intro fuel
  induction fuel with
  | zero => intro conns left right c2 h hInv; cases h
  | succ fuel ih =>
    intro conns left right c2 h hInv
    rw [mergeLoop] at h
    split at h
    · cases h
    · rename_i rl hlk
      split at h
      · cases h
      · rename_i lc0 hnca
        split at h
        · cases h
        · rename_i conns1 leftCandidate hm1
          have hInv1 : Inv P conns1 := by
            split at hm1
            · rename_i q
              rcases hrc : refineCandidate fuel conns left 1 left right q with e | out
              · rw [hrc] at hm1; cases hm1
              · rw [hrc] at hm1
                cases hm1
                exact refineCandidate_inv P fuel conns left 1 left right q out hrc hInv
            · cases hm1
              exact hInv
          split at h
          · cases h
          · rename_i rr hlk2
            split at h
            · cases h
            · rename_i rc0 hnca2
              split at h
              · cases h
              · rename_i conns2 rightCandidate hm2
                have hInv2 : Inv P conns2 := by
                  split at hm2
                  · rename_i q
                    rcases hrc : refineCandidate fuel conns1 right (-1) left right q
                        with e | out
                    · rw [hrc] at hm2; cases hm2
                    · rw [hrc] at hm2
                      cases hm2
                      exact refineCandidate_inv P fuel conns1 right (-1) left right q
                        out hrc hInv1
                  · cases hm2
                    exact hInv1
                split at h
                · cases h
                  exact hInv2
                · rename_i lc rc hnn
                  rcases leftCandidate with _ | lcv <;> rcases rightCandidate with _ | rcv
                  · exact (hnn rfl rfl).elim
                  · split at h
                    rename_i lc2 rc2 hpair
                    cases hpair
                    simp only [Option.getD_none, Option.getD_some] at h
                    split at h
                    · cases h
                    · rename_i conns3 hcn
                      exact ih _ _ _ _ h (connect_inv hcn hInv2)
                  · split at h
                    rename_i lc2 rc2 hpair
                    cases hpair
                    simp only [Option.getD_none, Option.getD_some] at h
                    split at h
                    · cases h
                    · rename_i conns3 hcn
                      exact ih _ _ _ _ h (connect_inv hcn hInv2)
                  · simp only [] at h
                    by_cases hic : inCircle rcv (lcv, left, right) = true
                    · rw [if_pos hic] at h
                      simp only [Option.getD_none, Option.getD_some] at h
                      split at h
                      · cases h
                      · rename_i conns3 hcn
                        exact ih _ _ _ _ h (connect_inv hcn hInv2)
                    · rw [if_neg hic] at h
                      simp only [Option.getD_none, Option.getD_some] at h
                      split at h
                      · cases h
                      · rename_i conns3 hcn
                        exact ih _ _ _ _ h (connect_inv hcn hInv2)

theorem sortByX_perm (pts : List Pt) : (sortByX pts).Perm pts := by
  unfold sortByX
  exact sortK_perm (fun p : Pt => p.x) pts

/-- The master induction: whenever `delaunay` returns a map, that map is
symmetric, well-formed, and keyed by exactly the input points. -/
theorem delaunayF_inv :
    ∀ (fuel : ℕ) (pts : List Pt) (c : Connections), pts.Nodup →
      delaunayF fuel pts = .ok c → Inv (fun x => x ∈ pts) c := by
  intro fuel
  induction fuel with
  | zero => intro pts c hnd h; cases h
  | succ fuel ih =>
    intro pts c hnd h
    rw [delaunayF] at h
    split at h
    · cases h
    · rename_i hlen
      have hperm : (sortByX pts).Perm pts := sortByX_perm pts
      split at h
      · rename_i p q hs
        rw [hs] at hperm
        exact inv_mono (connect_inv h (empty_inv [p, q])) fun x => hperm.mem_iff
      · rename_i p q r hs
        rw [hs] at hperm
        split at h
        · cases h
        · rename_i c1 hc1
          split at h
          · cases h
          · rename_i c2 hc2
            exact inv_mono
              (connect_inv h (connect_inv hc2 (connect_inv hc1 (empty_inv [p, q, r]))))
              fun x => hperm.mem_iff
      · simp only [] at h
        have hndS : (sortByX pts).Nodup := (hperm.nodup_iff).mpr hnd
        split at h
        · rename_i leftC rightC hL hR
          have hndL : (List.take ((sortByX pts).length / 2) (sortByX pts)).Nodup :=
            List.Nodup.sublist (List.take_sublist _ _) hndS
          have hndR : (List.drop ((sortByX pts).length / 2) (sortByX pts)).Nodup :=
            List.Nodup.sublist (List.drop_sublist _ _) hndS
          have hInvL := ih _ _ hndL hL
          have hInvR := ih _ _ hndR hR
          have hdisj := List.disjoint_take_drop (m := (sortByX pts).length / 2)
            (n := (sortByX pts).length / 2) hndS (le_refl _)
          have hdis : ∀ x, ¬(x ∈ List.take ((sortByX pts).length / 2) (sortByX pts) ∧
              x ∈ List.drop ((sortByX pts).length / 2) (sortByX pts)) := by
            rintro x ⟨ha, hb⟩
            exact hdisj ha hb
          have hInvM := append_inv hdis hInvL hInvR
          have hdisK : ∀ x, ¬(containsKey leftC x = true ∧ containsKey rightC x = true) := by
            rintro x ⟨ha, hb⟩
            exact hdis x ⟨(hInvL.2.2 x).mp ha, (hInvR.2.2 x).mp hb⟩
          rw [merge_eq_append hdisK] at h
          have hiff : ∀ x,
              (x ∈ List.take ((sortByX pts).length / 2) (sortByX pts) ∨
               x ∈ List.drop ((sortByX pts).length / 2) (sortByX pts)) ↔ x ∈ pts := by
            intro x
            rw [← List.mem_append, List.take_append_drop]
            exact hperm.mem_iff
          split at h
          · rename_i left0 right0 hgl hhd
            split at h
            · cases h
            · rename_i rl hrl
              split at h
              · cases h
              · rename_i nl hnl
                split at h
                · cases h
                · rename_i rr hrr
                  split at h
                  · cases h
                  · rename_i nr hnr
                    split at h
                    · cases h
                    · rename_i left1 right1 htl
                      split at h
                      · cases h
                      · rename_i conns1 hc1
                        have hInv1 := connect_inv hc1 hInvM
                        have hfin := mergeLoop_inv _ fuel conns1 left1 right1 c h hInv1
                        exact inv_mono hfin hiff
          · cases h
        · cases h
        · cases h

/-- On at most three (distinct) points no merge happens, and the two or three
`connect` calls of the base cases are all between fresh pairs, so the returned
map has at most one link per distinct target in every ring. -/
theorem delaunayF_small_nodup :
    ∀ (fuel : ℕ) (pts : List Pt) (c : Connections), pts.Nodup →
      pts.length ≤ 3 → delaunayF fuel pts = .ok c → NodupTargets c := by
  intro fuel pts c hnd hlen3 h
  cases fuel with
  | zero => rw [delaunayF] at h; cases h
  | succ fuel =>
    rw [delaunayF] at h
    split at h
    · cases h
    · rename_i hlen
      have hperm : (sortByX pts).Perm pts := sortByX_perm pts
      have hndS : (sortByX pts).Nodup := hperm.nodup_iff.mpr hnd
      have hN0 : ∀ ps : List Pt, NodupTargets (emptyConnections ps) := by
        intro ps e _
        rw [emptyConnections_ringOfD]
        simp
      have hfp0 : ∀ (ps : List Pt) (x : Pt), ∀ l ∈ ringOfD (emptyConnections ps) x,
          False := by
        intro ps x l hl
        rw [emptyConnections_ringOfD] at hl
        cases hl
      split at h
      · rename_i p q hs
        rw [hs] at hndS
        have hpq : p ≠ q := by
          intro e
          subst e
          simp at hndS
        exact connect_nodupTargets (hN0 [p, q]) hpq
          (fun l hl => (hfp0 [p, q] p l hl).elim)
          (fun l hl => (hfp0 [p, q] q l hl).elim) h
      · rename_i p q r hs
        rw [hs] at hndS
        simp only [List.nodup_cons, List.mem_cons, List.mem_singleton,
          List.not_mem_nil, or_false, not_or] at hndS
        obtain ⟨⟨hpq, hpr⟩, hqr, -⟩ := hndS
        split at h
        · cases h
        · rename_i c1 hc1
          split at h
          · cases h
          · rename_i c2 hc2
            have hN1 := connect_nodupTargets (hN0 [p, q, r]) hpq
              (fun l hl => (hfp0 [p, q, r] p l hl).elim)
              (fun l hl => (hfp0 [p, q, r] q l hl).elim) hc1
            have hring1 := (connect_ringOfD hc1).2.1
            have hq1 : ∀ l ∈ ringOfD c1 q, l.point ≠ r := by
              intro l hl
              rcases hring1 q l hl with h0 | ⟨hqp, _⟩ | ⟨-, hlp⟩
              · exact (hfp0 [p, q, r] q l h0).elim
              · exact (hpq hqp.symm).elim
              · rw [hlp]; exact hpr
            have hr1 : ∀ l ∈ ringOfD c1 r, l.point ≠ q := by
              intro l hl
              rcases hring1 r l hl with h0 | ⟨hrp, _⟩ | ⟨hrq, _⟩
              · exact (hfp0 [p, q, r] r l h0).elim
              · exact (hpr hrp.symm).elim
              · exact (hqr hrq.symm).elim
            have hN2 := connect_nodupTargets hN1 hqr hq1 hr1 hc2
            have hring2 := (connect_ringOfD hc2).2.1
            have hr2 : ∀ l ∈ ringOfD c2 r, l.point ≠ p := by
              intro l hl
              rcases hring2 r l hl with h1 | ⟨hrq, _⟩ | ⟨-, hlq⟩
              · rcases hring1 r l h1 with h0 | ⟨hrp, _⟩ | ⟨hrq, _⟩
                · exact (hfp0 [p, q, r] r l h0).elim
                · exact (hpr hrp.symm).elim
                · exact (hqr hrq.symm).elim
              · exact (hqr hrq.symm).elim
              · rw [hlq]; exact Ne.symm hpq
            have hp2 : ∀ l ∈ ringOfD c2 p, l.point ≠ r := by
              intro l hl
              rcases hring2 p l hl with h1 | ⟨hpq2, _⟩ | ⟨hpr2, _⟩
              · rcases hring1 p l h1 with h0 | ⟨-, hlq⟩ | ⟨hpq3, _⟩
                · exact (hfp0 [p, q, r] p l h0).elim
                · rw [hlq]; exact hqr
                · exact (hpq hpq3).elim
              · exact (hpq hpq2).elim
              · exact (hpr hpr2).elim
            exact connect_nodupTargets hN2 (Ne.symm hpr) hr2 hp2 h
      · exfalso
        rename_i spts hne2 hne3
        have hplen : (sortByX pts).length = pts.length := hperm.length_eq
        rcases hsp : sortByX pts with _ | ⟨a, _ | ⟨b, _ | ⟨d, _ | t⟩⟩⟩ <;>
          rw [hsp] at hplen
        · simp at hplen; omega
        · simp at hplen; omega
        · exact hne2 a b hsp
        · exact hne3 a b d hsp
        · simp at hplen; omega

/-!
## The scan loop of `nextConnectionFromAngle`
-/

/-- The stopping condition of the scan: an exact angle match stops it only
for direction at most 0, a strictly greater angle always stops it. -/
def StopP (a : Angle) (d : ℤ) (l : Link) : Prop :=
  (angleEqB l.angle a = true ∧ d ≤ 0) ∨ angleLtB a l.angle = true

theorem angleLtB_iff (a b : Angle) : angleLtB a b = true ↔ akeyL a < akeyL b := by
  simp [angleLtB]

theorem angleEqB_iff (a b : Angle) : angleEqB a b = true ↔ akeyL a = akeyL b := by
  simp [angleEqB]

theorem stopP_pos (a : Angle) (l : Link) :
    StopP a 1 l ↔ akeyL a < akeyL l.angle := by
  unfold StopP
  rw [angleLtB_iff]
  constructor
  · rintro (⟨_, hd⟩ | hlt)
    · norm_num at hd
    · exact hlt
  · exact Or.inr

theorem stopP_nonpos (a : Angle) {d : ℤ} (hd : d ≤ 0) (l : Link) :
    StopP a d l ↔ akeyL a ≤ akeyL l.angle := by
  unfold StopP
  rw [angleLtB_iff, angleEqB_iff]
  constructor
  · rintro (⟨heq, _⟩ | hlt)
    · exact le_of_eq heq.symm
    · exact le_of_lt hlt
  · intro hle
    rcases lt_or_eq_of_le hle with hlt | heq
    · exact Or.inr hlt
    · exact Or.inl ⟨heq.symm, hd⟩

theorem scanIdx_le (a : Angle) (d : ℤ) :
    ∀ ls : List Link, scanIdx a d ls ≤ ls.length
  | [] => le_refl _
  | l :: ls => by
    rw [scanIdx]
    split
    · simp
    · split
      · simp
      · simpa using scanIdx_le a d ls

theorem scanIdx_cons_zero {a : Angle} {d : ℤ} {l : Link} {ls : List Link}
    (h : scanIdx a d (l :: ls) = 0) : StopP a d l := by
  rw [scanIdx] at h
  split at h
  · rename_i hc
    exact Or.inl hc
  · split at h
    · rename_i hc
      exact Or.inr hc
    · cases h

theorem scanIdx_cons_of_stop {a : Angle} {d : ℤ} {l : Link} (ls : List Link)
    (h : StopP a d l) : scanIdx a d (l :: ls) = 0 := by
  rw [scanIdx]
  rcases h with hc | hc
  · rw [if_pos hc]
  · by_cases h1 : angleEqB l.angle a = true ∧ d ≤ 0
    · rw [if_pos h1]
    · rw [if_neg h1, if_pos hc]

theorem scanIdx_cons_of_not_stop {a : Angle} {d : ℤ} {l : Link} (ls : List Link)
    (h : ¬StopP a d l) : scanIdx a d (l :: ls) = scanIdx a d ls + 1 := by
  rw [scanIdx]
  rw [if_neg fun hc => h (Or.inl hc), if_neg fun hc => h (Or.inr hc)]

theorem scanIdx_not_stop (a : Angle) (d : ℤ) :
    ∀ (ls : List Link) (j : ℕ) (l : Link), j < scanIdx a d ls →
      ls.get? j = some l → ¬StopP a d l
  | [], j, l, hlt, hg => by
    rw [scanIdx] at hlt
    omega
  | l0 :: ls, j, l, hlt, hg => by
    by_cases hst : StopP a d l0
    · rw [scanIdx_cons_of_stop ls hst] at hlt
      omega
    · rw [scanIdx_cons_of_not_stop ls hst] at hlt
      rcases j with _ | j
      · rw [List.get?_cons_zero] at hg
        cases hg
        exact hst
      · rw [List.get?_cons_succ] at hg
        exact scanIdx_not_stop a d ls j l (by omega) hg

theorem scanIdx_get?_stop (a : Angle) (d : ℤ) :
    ∀ ls : List Link, scanIdx a d ls < ls.length →
      ∃ l, ls.get? (scanIdx a d ls) = some l ∧ StopP a d l
  | [], h => by
    rw [scanIdx] at h
    simp at h
  | l0 :: ls, h => by
    by_cases hst : StopP a d l0
    · rw [scanIdx_cons_of_stop ls hst]
      exact ⟨l0, rfl, hst⟩
    · rw [scanIdx_cons_of_not_stop ls hst] at h ⊢
      rw [List.get?_cons_succ]
      exact scanIdx_get?_stop a d ls (by simpa using h)

theorem scanIdx_all_not_stop {a : Angle} {d : ℤ} {ls : List Link}
    (h : ∀ l ∈ ls, ¬StopP a d l) : scanIdx a d ls = ls.length := by
  by_contra hne
  have hlt : scanIdx a d ls < ls.length :=
    lt_of_le_of_ne (scanIdx_le a d ls) hne
  obtain ⟨l, hg, hst⟩ := scanIdx_get?_stop a d ls hlt
  exact h l (List.get?_mem hg) hst

theorem linkSorted_le {ls : List Link} (hs : LinkSorted ls) {i j : ℕ}
    {li lj : Link} (hij : i ≤ j) (hi : ls.get? i = some li)
    (hj : ls.get? j = some lj) : akeyL li.angle ≤ akeyL lj.angle := by
  rcases eq_or_lt_of_le hij with rfl | hlt
  · rw [hi] at hj
    cases hj
    exact le_refl _
  · have hjl : j < ls.length := by
      by_contra hh
      rw [List.get?_eq_none.mpr (le_of_not_lt hh)] at hj
      cases hj
    have hil : i < ls.length := lt_trans hlt hjl
    rw [List.get?_eq_get hil] at hi
    rw [List.get?_eq_get hjl] at hj
    cases hi
    cases hj
    exact List.pairwise_iff_get.mp hs ⟨i, hil⟩ ⟨j, hjl⟩ hlt

/-- Forward lookup when a strictly greater angle exists: the scan returns the
link with the smallest angle strictly greater than the reference. -/
theorem nextConnFwd_found (ring : Ring) (a : Angle) (hs : LinkSorted ring.links)
    (hex : ∃ l ∈ ring.links, akeyL a < akeyL l.angle) :
    ∃ l ∈ ring.links, nextConnectionFromAngle a ring 1 = .ok l.point ∧
      akeyL a < akeyL l.angle ∧
      ∀ l2 ∈ ring.links, akeyL a < akeyL l2.angle →
        akeyL l.angle ≤ akeyL l2.angle := by
  have hi : scanIdx a 1 ring.links < ring.links.length := by
    by_contra hh
    obtain ⟨l, hl, hlt⟩ := hex
    obtain ⟨j, hjl⟩ := List.get?_of_mem hl
    have hjlen : j < ring.links.length := by
      by_contra hh2
      rw [List.get?_eq_none.mpr (le_of_not_lt hh2)] at hjl
      cases hjl
    have := scanIdx_not_stop a 1 ring.links j l (by omega) hjl
    exact this ((stopP_pos a l).mpr hlt)
  obtain ⟨l, hg, hst⟩ := scanIdx_get?_stop a 1 ring.links hi
  refine ⟨l, List.get?_mem hg, ?_, (stopP_pos a l).mp hst, ?_⟩
  · simp only [nextConnectionFromAngle]
    rw [if_pos (by norm_num : (0 : ℤ) < 1), hg]
    rfl
  · intro l2 hl2 hlt2
    obtain ⟨j, hjl⟩ := List.get?_of_mem hl2
    by_cases hji : j < scanIdx a 1 ring.links
    · exact absurd ((stopP_pos a l2).mpr hlt2)
        (scanIdx_not_stop a 1 ring.links j l2 hji hjl)
    · exact linkSorted_le hs (le_of_not_lt hji) hg hjl

/-- Forward lookup when no strictly greater angle exists: wrap to the first
link. -/
theorem nextConnFwd_wrap (ring : Ring) (a : Angle) (hne : ring.links ≠ [])
    (hall : ∀ l ∈ ring.links, ¬(akeyL a < akeyL l.angle)) :
    ∃ l0, ring.links.head? = some l0 ∧
      nextConnectionFromAngle a ring 1 = .ok l0.point := by
  have hid : scanIdx a 1 ring.links = ring.links.length :=
    scanIdx_all_not_stop fun l hl hst => hall l hl ((stopP_pos a l).mp hst)
  obtain ⟨l0, ls, hls⟩ := List.exists_cons_of_ne_nil hne
  refine ⟨l0, by rw [hls]; rfl, ?_⟩
  simp only [nextConnectionFromAngle]
  rw [if_pos (by norm_num : (0 : ℤ) < 1), hid,
    List.get?_eq_none.mpr (le_refl _), hls]
  rfl

/-- Backward lookup when a strictly smaller angle exists: the scan returns
the link with the largest angle strictly below the reference. -/
theorem nextConnBwd_found (ring : Ring) (a : Angle) (hs : LinkSorted ring.links)
    (hex : ∃ l ∈ ring.links, akeyL l.angle < akeyL a) :
    ∃ l ∈ ring.links, nextConnectionFromAngle a ring (-1) = .ok l.point ∧
      akeyL l.angle < akeyL a ∧
      ∀ l2 ∈ ring.links, akeyL l2.angle < akeyL a →
        akeyL l2.angle ≤ akeyL l.angle := by
  have hd : (-1 : ℤ) ≤ 0 := by norm_num
  have hne : ring.links ≠ [] := by
    obtain ⟨l, hl, _⟩ := hex
    exact List.ne_nil_of_mem hl
  have hipos : scanIdx a (-1) ring.links ≠ 0 := by
    intro h0
    obtain ⟨l0, ls, hls⟩ := List.exists_cons_of_ne_nil hne
    rw [hls] at h0
    have hle0 : akeyL a ≤ akeyL l0.angle :=
      (stopP_nonpos a hd l0).mp (scanIdx_cons_zero h0)
    obtain ⟨l, hl, hlt⟩ := hex
    obtain ⟨j, hjl⟩ := List.get?_of_mem hl
    have h0l : ring.links.get? 0 = some l0 := by rw [hls]; rfl
    have := linkSorted_le hs (Nat.zero_le j) h0l hjl
    exact absurd hlt (not_lt_of_le (le_trans hle0 this))
  have hile : scanIdx a (-1) ring.links ≤ ring.links.length :=
    scanIdx_le a (-1) _
  have him1 : scanIdx a (-1) ring.links - 1 < ring.links.length := by omega
  obtain ⟨l, hg⟩ : ∃ l,
      ring.links.get? (scanIdx a (-1) ring.links - 1) = some l := by
    rw [List.get?_eq_get him1]
    exact ⟨_, rfl⟩
  refine ⟨l, List.get?_mem hg, ?_, ?_, ?_⟩
  · simp only [nextConnectionFromAngle]
    rw [if_neg (by norm_num : ¬(0 : ℤ) < -1), if_neg hipos, hg]
    rfl
  · have := scanIdx_not_stop a (-1) ring.links
      (scanIdx a (-1) ring.links - 1) l (by omega) hg
    rw [stopP_nonpos a hd] at this
    exact lt_of_not_le this
  · intro l2 hl2 hlt2
    obtain ⟨j, hjl⟩ := List.get?_of_mem hl2
    by_cases hji : j < scanIdx a (-1) ring.links
    · exact linkSorted_le hs (by omega) hjl hg
    · have hjlen : j < ring.links.length := by
        by_contra hh
        rw [List.get?_eq_none.mpr (le_of_not_lt hh)] at hjl
        cases hjl
      have hilen : scanIdx a (-1) ring.links < ring.links.length := by omega
      obtain ⟨li, hgi, hsti⟩ := scanIdx_get?_stop a (-1) ring.links hilen
      have hai : akeyL a ≤ akeyL li.angle := (stopP_nonpos a hd li).mp hsti
      have hij : akeyL li.angle ≤ akeyL l2.angle :=
        linkSorted_le hs (le_of_not_lt hji) hgi hjl
      exact absurd hlt2 (not_lt_of_le (le_trans hai hij))

/-- Backward lookup when no strictly smaller angle exists: wrap to the last
link. -/
theorem nextConnBwd_wrap (ring : Ring) (a : Angle) (hne : ring.links ≠ [])
    (hall : ∀ l ∈ ring.links, ¬(akeyL l.angle < akeyL a)) :
    ∃ l0, ring.links.getLast? = some l0 ∧
      nextConnectionFromAngle a ring (-1) = .ok l0.point := by
  have hd : (-1 : ℤ) ≤ 0 := by norm_num
  obtain ⟨l0, ls, hls⟩ := List.exists_cons_of_ne_nil hne
  have hstop : StopP a (-1) l0 := by
    rw [stopP_nonpos a hd]
    exact le_of_not_lt (hall l0 (by rw [hls]; exact List.mem_cons_self _ _))
  have hid : scanIdx a (-1) ring.links = 0 := by
    rw [hls]
    exact scanIdx_cons_of_stop ls hstop
  refine ⟨ring.links.getLast hne, List.getLast?_eq_getLast_of_ne_nil hne, ?_⟩
  simp only [nextConnectionFromAngle]
  rw [if_neg (by norm_num : ¬(0 : ℤ) < -1), if_pos hid,
    List.getLast?_eq_getLast_of_ne_nil hne]

/-- A lookup in a nonempty ring always returns the target of one of the
stored links, in either direction. -/
theorem ncfa_nonempty (ring : Ring) (a : Angle) (d : ℤ)
    (hne : ring.links ≠ []) :
    ∃ l ∈ ring.links, nextConnectionFromAngle a ring d = .ok l.point := by
  obtain ⟨l0, ls, hls⟩ := List.exists_cons_of_ne_nil hne
  by_cases hd : 0 < d
  · by_cases hi : scanIdx a d ring.links < ring.links.length
    · obtain ⟨l, hg⟩ : ∃ l, ring.links.get? (scanIdx a d ring.links) = some l := by
        rw [List.get?_eq_get hi]
        exact ⟨_, rfl⟩
      refine ⟨l, List.get?_mem hg, ?_⟩
      simp only [nextConnectionFromAngle]
      rw [if_pos hd, hg]
      rfl
    · have hieq : ring.links.get? (scanIdx a d ring.links) = none :=
        List.get?_eq_none.mpr (le_of_not_lt hi)
      refine ⟨l0, by rw [hls]; exact List.mem_cons_self _ _, ?_⟩
      simp only [nextConnectionFromAngle]
      rw [if_pos hd, hieq, hls]
      rfl
  · by_cases hi0 : scanIdx a d ring.links = 0
    · refine ⟨ring.links.getLast hne, List.getLast_mem hne, ?_⟩
      simp only [nextConnectionFromAngle]
      rw [if_neg hd, if_pos hi0, List.getLast?_eq_getLast_of_ne_nil hne]
    · have hile : scanIdx a d ring.links ≤ ring.links.length := scanIdx_le a d _
      have him1 : scanIdx a d ring.links - 1 < ring.links.length := by omega
      obtain ⟨l, hg⟩ : ∃ l,
          ring.links.get? (scanIdx a d ring.links - 1) = some l := by
        rw [List.get?_eq_get him1]
        exact ⟨_, rfl⟩
      refine ⟨l, List.get?_mem hg, ?_⟩
      simp only [nextConnectionFromAngle]
      rw [if_neg hd, if_neg hi0, hg]
      rfl

/-- A lookup in an empty ring dereferences `undefined` (the TypeError case),
in either direction. -/
theorem ncfa_empty (ring : Ring) (a : Angle) (d : ℤ)
    (he : ring.links = []) :
    nextConnectionFromAngle a ring d = .error .typeError := by
  simp only [nextConnectionFromAngle]
  rw [he]
  by_cases hd : 0 < d
  · rw [if_pos hd]
    rfl
  · rw [if_neg hd]
    rfl

/-!
## Determinant correctness
-/

theorem S_three : S 3 =
    [([3,2,1],-1),([2,3,1],1),([2,1,3],-1),([3,1,2],1),([1,3,2],-1),([1,2,3],1)] := by
  decide

theorem S_four : S 4 =
    [([4,3,2,1],1),([3,4,2,1],-1),([3,2,4,1],1),([3,2,1,4],-1),
     ([4,2,3,1],-1),([2,4,3,1],1),([2,3,4,1],-1),([2,3,1,4],1),
     ([4,2,1,3],1),([2,4,1,3],-1),([2,1,4,3],1),([2,1,3,4],-1),
     ([4,3,1,2],-1),([3,4,1,2],1),([3,1,4,2],-1),([3,1,2,4],1),
     ([4,1,3,2],1),([1,4,3,2],-1),([1,3,4,2],1),([1,3,2,4],-1),
     ([4,1,2,3],-1),([1,4,2,3],1),([1,2,4,3],-1),([1,2,3,4],1)] := by
  decide

theorem detPerm_three (a b c d e f g h i : ℚ) :
    detPerm [[a,b,c],[d,e,f],[g,h,i]] =
      a*e*i - a*f*h - b*d*i + b*f*g + c*d*h - c*e*g := by
  simp only [detPerm]
  rw [show ([[a,b,c],[d,e,f],[g,h,i]] : List (List ℚ)).length = 3 from rfl,
    S_three, show List.range 3 = [0,1,2] from rfl]
  simp only [List.map_cons, List.map_nil, List.sum_cons, List.sum_nil,
    List.foldl_cons, List.foldl_nil, List.getD_cons_zero, List.getD_cons_succ]
  norm_num
  try ring

theorem mat_det_three (a b c d e f g h i : ℚ) :
    Matrix.det !![a,b,c; d,e,f; g,h,i] =
      a*e*i - a*f*h - b*d*i + b*f*g + c*d*h - c*e*g := by
  rw [Matrix.det_fin_three]
  simp [Matrix.cons_val_zero, Matrix.cons_val_one, Matrix.head_cons,
    Matrix.cons_val_two, Matrix.vecTail, Matrix.vecHead]
  try ring

/-- The permutation-expansion determinant of `main.ts` agrees with the
mathematical 3×3 determinant. -/
theorem detPerm_three_eq (a b c d e f g h i : ℚ) :
    detPerm [[a,b,c],[d,e,f],[g,h,i]] = Matrix.det !![a,b,c; d,e,f; g,h,i] := by
  rw [detPerm_three, mat_det_three]

theorem detCof_three (a b c d e f g h i : ℚ) :
    detCof [[a,b,c],[d,e,f],[g,h,i]] =
      a*e*i - a*f*h - b*d*i + b*f*g + c*d*h - c*e*g := by
  simp only [detCof, List.length_cons, List.length_nil, List.range_succ,
    List.range_zero, List.map_cons, List.map_nil, List.map_append,
    List.sum_cons, List.sum_nil, List.sum_append, List.nil_append,
    List.cons_append, List.getD_cons_zero, List.getD_cons_succ,
    List.take_succ_cons, List.take_zero, List.drop_succ_cons, List.drop_zero]
  norm_num
  try ring

/-- The cofactor-expansion determinant of the unnamed source file agrees with
the mathematical 3×3 determinant. -/
theorem detCof_three_eq (a b c d e f g h i : ℚ) :
    detCof [[a,b,c],[d,e,f],[g,h,i]] = Matrix.det !![a,b,c; d,e,f; g,h,i] := by
  rw [detCof_three, mat_det_three]

/-- The permutation-expansion determinant agrees with the mathematical 4×4
determinant. -/
theorem detPerm_four_eq (a b c d e f g h i j k l m n o p : ℚ) :
    detPerm [[a,b,c,d],[e,f,g,h],[i,j,k,l],[m,n,o,p]] =
      Matrix.det !![a,b,c,d; e,f,g,h; i,j,k,l; m,n,o,p] := by
  simp only [detPerm]
  rw [show ([[a,b,c,d],[e,f,g,h],[i,j,k,l],[m,n,o,p]] : List (List ℚ)).length = 4
      from rfl, S_four, show List.range 4 = [0,1,2,3] from rfl]
  simp only [List.map_cons, List.map_nil, List.sum_cons, List.sum_nil,
    List.foldl_cons, List.foldl_nil, List.getD_cons_zero, List.getD_cons_succ]
  norm_num
  rw [Matrix.det_succ_row_zero]
  simp [Fin.sum_univ_succ, Matrix.det_fin_three, Matrix.submatrix_apply,
    Matrix.cons_val_zero, Matrix.cons_val_one, Matrix.head_cons,
    Matrix.cons_val_two, Matrix.vecTail, Matrix.vecHead,
    Fin.succAbove, Fin.lt_def, Fin.castSucc, Fin.castAdd, Fin.castLE]
  try ring

/-- The cofactor-expansion determinant agrees with the mathematical 4×4
determinant. -/
theorem detCof_four_eq (a b c d e f g h i j k l m n o p : ℚ) :
    detCof [[a,b,c,d],[e,f,g,h],[i,j,k,l],[m,n,o,p]] =
      Matrix.det !![a,b,c,d; e,f,g,h; i,j,k,l; m,n,o,p] := by
  simp only [detCof, List.length_cons, List.length_nil, List.range_succ,
    List.range_zero, List.map_cons, List.map_nil, List.map_append,
    List.sum_cons, List.sum_nil, List.sum_append, List.nil_append,
    List.cons_append, List.getD_cons_zero, List.getD_cons_succ,
    List.take_succ_cons, List.take_zero, List.drop_succ_cons, List.drop_zero]
  norm_num
  rw [Matrix.det_succ_row_zero]
  simp [Fin.sum_univ_succ, Matrix.det_fin_three, Matrix.submatrix_apply,
    Matrix.cons_val_zero, Matrix.cons_val_one, Matrix.head_cons,
    Matrix.cons_val_two, Matrix.vecTail, Matrix.vecHead,
    Fin.succAbove, Fin.lt_def, Fin.castSucc, Fin.castAdd, Fin.castLE]
  try ring

/-!
## Decidability instances for concrete evaluation
-/

instance {ε α : Type} [DecidableEq ε] [DecidableEq α] : DecidableEq (Except ε α)
  | .error e1, .error e2 =>
    if h : e1 = e2 then .isTrue (by rw [h])
    else .isFalse (by intro hh; cases hh; exact h rfl)
  | .error _, .ok _ => .isFalse (by intro hh; cases hh)
  | .ok _, .error _ => .isFalse (by intro hh; cases hh)
  | .ok a1, .ok a2 =>
    if h : a1 = a2 then .isTrue (by rw [h])
    else .isFalse (by intro hh; cases hh; exact h rfl)

instance (ls : List Link) : Decidable (LinkSorted ls) := by
  unfold LinkSorted
  infer_instance

instance (c : Connections) : Decidable (SymmP c) := by
  unfold SymmP
  infer_instance

instance (c : Connections) : Decidable (WFc c) := by
  unfold WFc
  infer_instance

instance (c : Connections) : Decidable (NodupTargets c) := by
  unfold NodupTargets
  infer_instance

/-!
## Concrete scenarios and the claim theorems

The Batteries rational operations are `@[irreducible]`, which blocks only the
elaborator; making them semireducible lets `decide` evaluate the embedded
program on concrete inputs (the kernel never looked at the attribute).
-/

set_option allowUnsafeReducibility true

attribute [semireducible] Rat.add Rat.sub Rat.mul Rat.inv Rat.ofScientific

/-- The input set of the triangle scenario, as listed in the spec. -/
def ptsT : List Pt := [⟨0,0⟩, ⟨1,0⟩, ⟨0,1⟩]

/-- The triangulation `delaunay` computes for `ptsT`: the three mutual
edges of the triangle. -/
def triMap : Connections :=
  [(⟨0,0⟩, ⟨⟨0,0⟩, [⟨⟨1,0⟩, .dir 1 0⟩, ⟨⟨0,1⟩, .dir 0 1⟩]⟩),
   (⟨0,1⟩, ⟨⟨0,1⟩, [⟨⟨0,0⟩, .dir 0 (-1)⟩, ⟨⟨1,0⟩, .dir 1 (-1)⟩]⟩),
   (⟨1,0⟩, ⟨⟨1,0⟩, [⟨⟨0,1⟩, .dir (-1) 1⟩, ⟨⟨0,0⟩, .dir (-1) 0⟩]⟩)]

/-- The Voronoi map `dual` computes for `triMap`: one vertex at the
circumcenter, carrying six self-links (each of the three directed-edge pairs
finds the same single face on both sides, and the face-connect step then
connects the circumcenter to itself, pushing two self-links per neighbor). -/
def vorT : Connections :=
  [(⟨1/2, 1/2⟩, ⟨⟨1/2, 1/2⟩,
    [⟨⟨1/2, 1/2⟩, .dir 0 0⟩, ⟨⟨1/2, 1/2⟩, .dir 0 0⟩, ⟨⟨1/2, 1/2⟩, .dir 0 0⟩,
     ⟨⟨1/2, 1/2⟩, .dir 0 0⟩, ⟨⟨1/2, 1/2⟩, .dir 0 0⟩, ⟨⟨1/2, 1/2⟩, .dir 0 0⟩]⟩)]

/-- The input of the two-point scenario. -/
def pts2 : List Pt := [⟨0,0⟩, ⟨1,0⟩]

/-- The single-edge map `delaunay` computes for `pts2`. -/
def edgeMap : Connections :=
  [(⟨0,0⟩, ⟨⟨0,0⟩, [⟨⟨1,0⟩, .dir 1 0⟩]⟩),
   (⟨1,0⟩, ⟨⟨1,0⟩, [⟨⟨0,0⟩, .dir (-1) 0⟩]⟩)]

/-- The map after connecting `(0,0)` and `(1,0)` once. -/
def cOnce : Connections :=
  [(⟨0,0⟩, ⟨⟨0,0⟩, [⟨⟨1,0⟩, .dir 1 0⟩]⟩),
   (⟨1,0⟩, ⟨⟨1,0⟩, [⟨⟨0,0⟩, .dir (-1) 0⟩]⟩)]

/-- A three-entry input list that repeats a point. -/
def dupPts : List Pt := [⟨0,0⟩, ⟨0,0⟩, ⟨1,0⟩]

/-- The map `delaunay` computes for `dupPts`: the repeated point makes the
three-point branch connect `(0,0)` to itself and to `(1,0)` twice, so every
ring carries duplicated links. -/
def dupMap : Connections :=
  [(⟨0,0⟩, ⟨⟨0,0⟩,
    [⟨⟨0,0⟩, .dir 0 0⟩, ⟨⟨0,0⟩, .dir 0 0⟩,
     ⟨⟨1,0⟩, .dir 1 0⟩, ⟨⟨1,0⟩, .dir 1 0⟩]⟩),
   (⟨1,0⟩, ⟨⟨1,0⟩, [⟨⟨0,0⟩, .dir (-1) 0⟩, ⟨⟨0,0⟩, .dir (-1) 0⟩]⟩)]

/-- The map after connecting the same pair a second time: both rings now
carry a duplicated link. -/
def cTwice : Connections :=
  [(⟨0,0⟩, ⟨⟨0,0⟩, [⟨⟨1,0⟩, .dir 1 0⟩, ⟨⟨1,0⟩, .dir 1 0⟩]⟩),
   (⟨1,0⟩, ⟨⟨1,0⟩, [⟨⟨0,0⟩, .dir (-1) 0⟩, ⟨⟨0,0⟩, .dir (-1) 0⟩]⟩)]

/-- Claim C1: symmetry invariant of the adjacency map — for every point p and
every link (p → q) in its ring, the ring of q contains a link (q → p); this is
preserved by every successful `connect` and `disconnect` call (both sides
updated together), and it holds for the map returned by any full `delaunay`
run on distinct points (general position implies distinctness). -/
theorem claim_C1 :
    (∀ (p q : Pt) (c c2 : Connections),
      SymmP c → connect p q c = .ok c2 → SymmP c2) ∧
    (∀ (p q : Pt) (c c2 : Connections),
      SymmP c → disconnect p q c = .ok c2 → SymmP c2) ∧
    (∀ (fuel : ℕ) (pts : List Pt) (c : Connections), pts.Nodup →
      delaunayF fuel pts = .ok c → SymmP c) :=
  ⟨fun _ _ _ _ hs h => connect_symm hs h,
   fun _ _ _ _ hs h => disconnect_symm hs h,
   fun fuel pts c hnd h => (delaunayF_inv fuel pts c hnd h).1⟩

/-- Witness for C1 at the concrete triangle run. -/
theorem claim_C1_witness : SymmP triMap :=
  claim_C1.2.2 8 ptsT triMap (by decide) (by decide)

/-- Claim C2 (amended): on `{(0,0),(1,0),(0,1)}`, `delaunay` returns exactly
the three mutual edges of the triangle, and `dual` returns a single Voronoi
vertex keyed by the circumcenter `(1/2, 1/2)`; but that vertex's ring is not
empty — it holds six self-links at angle `atan2(0,0) = 0`, two per directed
edge pair, because the single face is its own neighbor across each edge. -/
theorem claim_C2 :
    delaunayF 8 ptsT = .ok triMap ∧
    triMap.map (fun e => e.1) = [⟨0,0⟩, ⟨0,1⟩, ⟨1,0⟩] ∧
    (ringOfD triMap ⟨0,0⟩).map Link.point = [⟨1,0⟩, ⟨0,1⟩] ∧
    (ringOfD triMap ⟨0,1⟩).map Link.point = [⟨0,0⟩, ⟨1,0⟩] ∧
    (ringOfD triMap ⟨1,0⟩).map Link.point = [⟨0,1⟩, ⟨0,0⟩] ∧
    centerOf ⟨1,0⟩ ⟨0,0⟩ ⟨0,1⟩ = ⟨1/2, 1/2⟩ ∧
    dual 8 triMap = .ok vorT ∧
    vorT.map (fun e => e.1) = [⟨1/2, 1/2⟩] ∧
    (ringOfD vorT ⟨1/2, 1/2⟩).map Link.point = List.replicate 6 ⟨1/2, 1/2⟩ := by
  decide

/-- Counterexample to C2 as stated: the single Voronoi vertex of the
triangle's dual does not have an empty ring. -/
theorem claim_C2_counterexample :
    delaunayF 8 ptsT = .ok triMap ∧ dual 8 triMap = .ok vorT ∧
    vorT.map (fun e => e.1) = [⟨1/2, 1/2⟩] ∧
    ringOfD vorT ⟨1/2, 1/2⟩ ≠ [] := by
  decide

/-- Claim C3: `nextConnection` semantics on a sorted nonempty ring.  With
direction `+1` the result is the target of the link with the smallest angle
strictly greater than the reference (wrapping to the first link when none
exists); with direction `-1` it is the target of the link with the largest
angle strictly below the reference (wrapping to the last link); a link whose
angle equals the reference stops the forward scan only for direction ≤ 0, so
it is skipped by the `+1` lookup and acts as the upper fence of the `-1`
lookup, exactly the asymmetric tie-break.  A point reference is first turned
into the `atan2` angle of the difference from the ring center. -/
theorem claim_C3 (ring : Ring) (a : Angle) (hne : ring.links ≠ [])
    (hs : LinkSorted ring.links) :
    ((∃ l ∈ ring.links, akeyL a < akeyL l.angle) →
      ∃ l ∈ ring.links, nextConnectionFromAngle a ring 1 = .ok l.point ∧
        akeyL a < akeyL l.angle ∧
        ∀ l2 ∈ ring.links, akeyL a < akeyL l2.angle →
          akeyL l.angle ≤ akeyL l2.angle) ∧
    ((∀ l ∈ ring.links, ¬(akeyL a < akeyL l.angle)) →
      ∃ l0, ring.links.head? = some l0 ∧
        nextConnectionFromAngle a ring 1 = .ok l0.point) ∧
    ((∃ l ∈ ring.links, akeyL l.angle < akeyL a) →
      ∃ l ∈ ring.links, nextConnectionFromAngle a ring (-1) = .ok l.point ∧
        akeyL l.angle < akeyL a ∧
        ∀ l2 ∈ ring.links, akeyL l2.angle < akeyL a →
          akeyL l2.angle ≤ akeyL l.angle) ∧
    ((∀ l ∈ ring.links, ¬(akeyL l.angle < akeyL a)) →
      ∃ l0, ring.links.getLast? = some l0 ∧
        nextConnectionFromAngle a ring (-1) = .ok l0.point) ∧
    (∀ (d : ℤ) (p : Pt), nextConnection (.inr p) ring d =
      nextConnectionFromAngle (angOf (pminus p ring.center)) ring d) ∧
    (∀ (d : ℤ) (b : Angle), nextConnection (.inl b) ring d =
      nextConnectionFromAngle b ring d) :=
  ⟨fun hex => nextConnFwd_found ring a hs hex,
   fun hall => nextConnFwd_wrap ring a hne hall,
   fun hex => nextConnBwd_found ring a hs hex,
   fun hall => nextConnBwd_wrap ring a hne hall,
   fun _ _ => rfl, fun _ _ => rfl⟩

/-- The two-link ring used to witness C3: center `(0,0)` with links to
`(1,0)` (angle 0) and `(0,1)` (angle π/2). -/
def ringT2 : Ring := ⟨⟨0,0⟩, [⟨⟨1,0⟩, .dir 1 0⟩, ⟨⟨0,1⟩, .dir 0 1⟩]⟩

/-- Witness for C3 at a concrete sorted ring with the reference angle equal
to the first link's angle (so the tie-break is exercised). -/
theorem claim_C3_witness :
    ((∃ l ∈ ringT2.links, akeyL (Angle.dir 1 0) < akeyL l.angle) →
      ∃ l ∈ ringT2.links,
        nextConnectionFromAngle (Angle.dir 1 0) ringT2 1 = .ok l.point ∧
        akeyL (Angle.dir 1 0) < akeyL l.angle ∧
        ∀ l2 ∈ ringT2.links, akeyL (Angle.dir 1 0) < akeyL l2.angle →
          akeyL l.angle ≤ akeyL l2.angle) ∧
    ((∀ l ∈ ringT2.links, ¬(akeyL (Angle.dir 1 0) < akeyL l.angle)) →
      ∃ l0, ringT2.links.head? = some l0 ∧
        nextConnectionFromAngle (Angle.dir 1 0) ringT2 1 = .ok l0.point) ∧
    ((∃ l ∈ ringT2.links, akeyL l.angle < akeyL (Angle.dir 1 0)) →
      ∃ l ∈ ringT2.links,
        nextConnectionFromAngle (Angle.dir 1 0) ringT2 (-1) = .ok l.point ∧
        akeyL l.angle < akeyL (Angle.dir 1 0) ∧
        ∀ l2 ∈ ringT2.links, akeyL l2.angle < akeyL (Angle.dir 1 0) →
          akeyL l2.angle ≤ akeyL l.angle) ∧
    ((∀ l ∈ ringT2.links, ¬(akeyL l.angle < akeyL (Angle.dir 1 0))) →
      ∃ l0, ringT2.links.getLast? = some l0 ∧
        nextConnectionFromAngle (Angle.dir 1 0) ringT2 (-1) = .ok l0.point) ∧
    (∀ (d : ℤ) (p : Pt), nextConnection (.inr p) ringT2 d =
      nextConnectionFromAngle (angOf (pminus p ringT2.center)) ringT2 d) ∧
    (∀ (d : ℤ) (b : Angle), nextConnection (.inl b) ringT2 d =
      nextConnectionFromAngle b ringT2 d) :=
  claim_C3 ringT2 (Angle.dir 1 0) (by decide) (by decide)

/-- Claim C4 (amended): `delaunay` sorts its input array in place by
ascending x-coordinate before building the triangulation, so the caller's
sequence is reordered rather than left unchanged; the multiset of points is
preserved, and the computation depends on nothing but this argument. -/
theorem claim_C4 (pts : List Pt) :
    (delaunayArgAfter pts).Perm pts ∧
    (delaunayArgAfter pts).Pairwise fun p q => p.x ≤ q.x := by
  unfold delaunayArgAfter
  split
  · rename_i hlen
    refine ⟨List.Perm.refl _, ?_⟩
    rcases pts with _ | ⟨p, _ | ⟨q, t⟩⟩
    · exact List.Pairwise.nil
    · simp
    · simp at hlen
      omega
  · exact ⟨sortByX_perm pts, by unfold sortByX; exact sortK_sorted _ _⟩

/-- Counterexample to C4 as stated: after the call, an unsorted input array
is no longer in its original order. -/
theorem claim_C4_counterexample :
    delaunayArgAfter [(⟨1,0⟩ : Pt), ⟨0,0⟩] ≠ [(⟨1,0⟩ : Pt), ⟨0,0⟩] := by
  decide

/-- Claim C5: the coincidence guards of the predicates — a point equal to an
endpoint is neither below nor above the line and never strictly inside the
circumcircle of a triangle it belongs to; otherwise each predicate is exactly
the stated sign of the mathematical determinant, with the line's endpoints
canonicalized so the one with the smaller x comes first. -/
theorem claim_C5 (p a b c : Pt) :
    ((p = a ∨ p = b) → belowLine p (a, b) = false ∧ aboveLine p (a, b) = false) ∧
    ((p = a ∨ p = b ∨ p = c) → inCircle p (a, b, c) = false) ∧
    (p ≠ a → p ≠ b →
      belowLine p (a, b) = decide (Matrix.det
          !![(if b.x < a.x then b else a).x, (if b.x < a.x then b else a).y, 1;
             (if b.x < a.x then a else b).x, (if b.x < a.x then a else b).y, 1;
             p.x, p.y, 1] < 0) ∧
      aboveLine p (a, b) = decide (0 < Matrix.det
          !![(if b.x < a.x then b else a).x, (if b.x < a.x then b else a).y, 1;
             (if b.x < a.x then a else b).x, (if b.x < a.x then a else b).y, 1;
             p.x, p.y, 1])) ∧
    (p ≠ a → p ≠ b → p ≠ c →
      inCircle p (a, b, c) = decide (0 < Matrix.det
          !![a.x, a.y, norm2 a, 1; b.x, b.y, norm2 b, 1;
             c.x, c.y, norm2 c, 1; p.x, p.y, norm2 p, 1])) := by
  refine ⟨?_, ?_, ?_, ?_⟩
  · intro h
    constructor
    · unfold belowLine
      rw [if_pos h]
    · unfold aboveLine
      rw [if_pos h]
  · intro h
    unfold inCircle
    rw [if_pos h]
  · intro hpa hpb
    have hng : ¬(p = (a, b).1 ∨ p = (a, b).2) := by
      rintro (h | h)
      · exact hpa h
      · exact hpb h
    constructor
    · simp only [belowLine]
      rw [if_neg hng, detPerm_three_eq]
    · simp only [aboveLine]
      rw [if_neg hng, detPerm_three_eq]
  · intro hpa hpb hpc
    have hng : ¬(p = (a, b, c).1 ∨ p = (a, b, c).2.1 ∨ p = (a, b, c).2.2) := by
      rintro (h | h | h)
      · exact hpa h
      · exact hpb h
      · exact hpc h
    simp only [inCircle]
    rw [if_neg hng, detPerm_four_eq]

/-- Witness for C5: a guard case and a sign case at concrete points. -/
theorem claim_C5_witness :
    (belowLine ⟨0,0⟩ (⟨0,0⟩, ⟨1,1⟩) = false ∧
      aboveLine ⟨0,0⟩ (⟨0,0⟩, ⟨1,1⟩) = false) ∧
    (belowLine ⟨2,0⟩ (⟨1,1⟩, ⟨0,0⟩) = decide (Matrix.det
        !![(if (⟨0,0⟩ : Pt).x < (⟨1,1⟩ : Pt).x then (⟨0,0⟩ : Pt) else ⟨1,1⟩).x,
           (if (⟨0,0⟩ : Pt).x < (⟨1,1⟩ : Pt).x then (⟨0,0⟩ : Pt) else ⟨1,1⟩).y, 1;
           (if (⟨0,0⟩ : Pt).x < (⟨1,1⟩ : Pt).x then (⟨1,1⟩ : Pt) else ⟨0,0⟩).x,
           (if (⟨0,0⟩ : Pt).x < (⟨1,1⟩ : Pt).x then (⟨1,1⟩ : Pt) else ⟨0,0⟩).y, 1;
           (⟨2,0⟩ : Pt).x, (⟨2,0⟩ : Pt).y, 1] < 0)) :=
  ⟨(claim_C5 ⟨0,0⟩ ⟨0,0⟩ ⟨1,1⟩ ⟨0,0⟩).1 (Or.inl rfl),
   ((claim_C5 ⟨2,0⟩ ⟨1,1⟩ ⟨0,0⟩ ⟨0,0⟩).2.2.1 (by decide) (by decide)).1⟩

/-- Claim C7: on `{(0,0),(1,0)}`, `delaunay` returns exactly one mutual edge
between the two points, and `dual` on that result throws the
MalformedTriangulation condition, since neither orientation of the seed edge
passes the right-triangle test. -/
theorem claim_C7 :
    delaunayF 8 pts2 = .ok edgeMap ∧
    edgeMap.map (fun e => e.1) = [⟨0,0⟩, ⟨1,0⟩] ∧
    (ringOfD edgeMap ⟨0,0⟩).map Link.point = [⟨1,0⟩] ∧
    (ringOfD edgeMap ⟨1,0⟩).map Link.point = [⟨0,0⟩] ∧
    dual 8 edgeMap = .error .malformedTriangulation := by
  decide

/-- Claim C8: the permutation-expansion determinant of `main.ts` and the
cofactor-expansion determinant of the unnamed source file both compute the
mathematical determinant on every 3×3 and 4×4 matrix, hence agree with each
other there. -/
theorem claim_C8 :
    (∀ a b c d e f g h i : ℚ,
      detPerm [[a,b,c],[d,e,f],[g,h,i]] = Matrix.det !![a,b,c; d,e,f; g,h,i] ∧
      detCof [[a,b,c],[d,e,f],[g,h,i]] = Matrix.det !![a,b,c; d,e,f; g,h,i] ∧
      detPerm [[a,b,c],[d,e,f],[g,h,i]] = detCof [[a,b,c],[d,e,f],[g,h,i]]) ∧
    (∀ a b c d e f g h i j k l m n o p : ℚ,
      detPerm [[a,b,c,d],[e,f,g,h],[i,j,k,l],[m,n,o,p]] =
        Matrix.det !![a,b,c,d; e,f,g,h; i,j,k,l; m,n,o,p] ∧
      detCof [[a,b,c,d],[e,f,g,h],[i,j,k,l],[m,n,o,p]] =
        Matrix.det !![a,b,c,d; e,f,g,h; i,j,k,l; m,n,o,p] ∧
      detPerm [[a,b,c,d],[e,f,g,h],[i,j,k,l],[m,n,o,p]] =
        detCof [[a,b,c,d],[e,f,g,h],[i,j,k,l],[m,n,o,p]]) :=
  ⟨fun a b c d e f g h i =>
    ⟨detPerm_three_eq a b c d e f g h i, detCof_three_eq a b c d e f g h i,
     by rw [detPerm_three_eq, detCof_three_eq]⟩,
   fun a b c d e f g h i j k l m n o p =>
    ⟨detPerm_four_eq a b c d e f g h i j k l m n o p,
     detCof_four_eq a b c d e f g h i j k l m n o p,
     by rw [detPerm_four_eq, detCof_four_eq]⟩⟩

/-- Claim C9 (amended): ring well-formedness.  Sortedness by angle, the
angle-of-difference property and the `(-π, π]` angle range are preserved by
every successful `connect` and `disconnect` and hold in every map a
`delaunay` run returns on distinct points.  The at-most-one-link-per-target
property is preserved by every `disconnect`, by `connect` on a pair of
distinct points not already linked to each other, and holds in every map
`delaunay` returns on at most three distinct points; it is not universal: a
repeated `connect` of the same pair duplicates the link, and `delaunay`
itself returns rings with duplicated links when the input repeats a point
(see the counterexample for both). -/
theorem claim_C9 :
    (∀ (p q : Pt) (c c2 : Connections),
      WFc c → connect p q c = .ok c2 → WFc c2) ∧
    (∀ (p q : Pt) (c c2 : Connections),
      WFc c → disconnect p q c = .ok c2 → WFc c2) ∧
    (∀ (fuel : ℕ) (pts : List Pt) (c : Connections), pts.Nodup →
      delaunayF fuel pts = .ok c → WFc c) ∧
    (∀ (p q : Pt) (c c2 : Connections), NodupTargets c → p ≠ q →
      (∀ l ∈ ringOfD c p, l.point ≠ q) → (∀ l ∈ ringOfD c q, l.point ≠ p) →
      connect p q c = .ok c2 → NodupTargets c2) ∧
    (∀ (p q : Pt) (c c2 : Connections),
      NodupTargets c → disconnect p q c = .ok c2 → NodupTargets c2) ∧
    (∀ (fuel : ℕ) (pts : List Pt) (c : Connections), pts.Nodup →
      pts.length ≤ 3 → delaunayF fuel pts = .ok c → NodupTargets c) :=
  ⟨fun _ _ _ _ hw h => connect_wf hw h,
   fun _ _ _ _ hw h => disconnect_wf hw h,
   fun fuel pts c hnd h => (delaunayF_inv fuel pts c hnd h).2.1,
   fun _ _ _ _ hn hpq hfp hfq h => connect_nodupTargets hn hpq hfp hfq h,
   fun _ _ _ _ hn h => disconnect_nodupTargets hn h,
   fun fuel pts c hnd hl h => delaunayF_small_nodup fuel pts c hnd hl h⟩

/-- Witness for C9 at the concrete triangle run. -/
theorem claim_C9_witness : WFc triMap :=
  claim_C9.2.2.1 8 ptsT triMap (by decide) (by decide)

/-- Counterexample to C9 as stated: connecting an already-connected pair
pushes a second link to the same target, so the at-most-one-link-per-target
invariant is not preserved by every `connect` call; and `delaunay` itself
returns a map with duplicated links when its input repeats a point, so the
invariant does not hold in every map `delaunay` returns. -/
theorem claim_C9_counterexample :
    (connect ⟨0,0⟩ ⟨1,0⟩ (emptyConnections [⟨0,0⟩, ⟨1,0⟩]) = .ok cOnce ∧
      connect ⟨0,0⟩ ⟨1,0⟩ cOnce = .ok cTwice ∧
      NodupTargets cOnce ∧ ¬NodupTargets cTwice) ∧
    (delaunayF 8 dupPts = .ok dupMap ∧ ¬NodupTargets dupMap) := by
  decide

/-- Claim C10: `nextConnectionFromAngle` (and `nextConnection` through it) is
safe exactly on rings with at least one link — there it always returns the
target of a link actually stored in the ring, for any direction and any
reference; on an empty ring the fallback indexing dereferences `undefined`
and the access fails with the TypeError condition. -/
theorem claim_C10 :
    (∀ (ring : Ring) (a : Angle) (d : ℤ), ring.links ≠ [] →
      ∃ l ∈ ring.links, nextConnectionFromAngle a ring d = .ok l.point) ∧
    (∀ (ring : Ring) (p : Pt) (d : ℤ), ring.links ≠ [] →
      ∃ l ∈ ring.links, nextConnection (.inr p) ring d = .ok l.point) ∧
    (∀ (ring : Ring) (a : Angle) (d : ℤ), ring.links = [] →
      nextConnectionFromAngle a ring d = .error .typeError) ∧
    (∀ (ring : Ring) (p : Pt) (d : ℤ), ring.links = [] →
      nextConnection (.inr p) ring d = .error .typeError) :=
  ⟨fun ring a d hne => ncfa_nonempty ring a d hne,
   fun ring _ d hne => ncfa_nonempty ring _ d hne,
   fun ring a d he => ncfa_empty ring a d he,
   fun ring _ d he => ncfa_empty ring _ d he⟩

/-- Witness for C10 at a concrete one-link ring. -/
theorem claim_C10_witness :
    ∃ l ∈ (⟨⟨0,0⟩, [⟨⟨1,0⟩, .dir 1 0⟩]⟩ : Ring).links,
      nextConnectionFromAngle (Angle.dir 0 1)
        (⟨⟨0,0⟩, [⟨⟨1,0⟩, .dir 1 0⟩]⟩ : Ring) 1 = .ok l.point :=
  claim_C10.1 ⟨⟨0,0⟩, [⟨⟨1,0⟩, .dir 1 0⟩]⟩ (Angle.dir 0 1) 1 (by decide)

end DT
